import Mathlib

/-!
# Spell checker: edit-distance engines and suggestion ranking

A shallow embedding of the two JavaScript sources of the repository:

* `SC.js`            — weighted sequence alignment (vowel/consonant aware), namespace `SC`;
* `spell_checker.js` — unit-cost Levenshtein distance with threshold, namespace `spell_checker`.

A JavaScript string is the sequence of its UTF-16 code units; a word is modelled as a
`List Char`, one `Char` per code unit.  The numbers that occur (table entries bounded by
`3 * (m + n)`) are exactly representable, so they are modelled as `Nat`.
The two-dimensional arrays of the source are lists of rows that are updated in place by
the loops; the loops are folds over the index ranges they run through.
-/

set_option autoImplicit false

/-! ## Two-dimensional tables -/

/-- The table `Array(m + 1).fill(null).map(() => Array(n + 1).fill(0))`. -/
def mkTable (m n : Nat) : List (List Nat) :=
  List.replicate (m + 1) (List.replicate (n + 1) 0)

/-- Read `t[i][j]`. -/
def get2 (t : List (List Nat)) (i j : Nat) : Nat :=
  (t.getD i []).getD j 0

/-- The assignment `t[i][j] = v`. -/
def set2 (t : List (List Nat)) (i j v : Nat) : List (List Nat) :=
  t.set i ((t.getD i []).set j v)

/-- The call `Math.min(x, y, z)` on three numbers. -/
def min3 (x y z : Nat) : Nat := min x (min y z)

/-- The character `word[i]` of a word, for an index inside the word. -/
def charAt (word : List Char) (i : Nat) : Char := word.getD i (Char.ofNat 0)

/-! ## SC.js -/

namespace SC

/-- The test `vowels.includes(c)` with `vowels = "aeiou"` on a single character. -/
def isVowel (c : Char) : Bool := "aeiou".toList.contains c

/-- Source function `getMismatchPenalty(char1, char2)` of SC.js. -/
def getMismatchPenalty (char1 char2 : Char) : Nat :=
  let char1IsVowel := isVowel char1
  let char2IsVowel := isVowel char2
  if char1 = char2 then 0
  else if char1IsVowel && char2IsVowel then 1
  else if !char1IsVowel && !char2IsVowel then 1
  else 3

/-- The constant `GAP_PENALTY` of `editDistance`. -/
def GAP_PENALTY : Nat := 2

/-- The table `opt` at the end of `editDistance(word1, word2)` of SC.js. -/
def editDistanceTable (word1 word2 : List Char) : List (List Nat) :=
  let m := word1.length
  let n := word2.length
  let opt := mkTable m n
  let opt := (List.range (m + 1)).foldl (fun opt i => set2 opt i 0 (i * GAP_PENALTY)) opt
  let opt := (List.range (n + 1)).foldl (fun opt j => set2 opt 0 j (j * GAP_PENALTY)) opt
  (List.range' 1 m).foldl (fun opt i =>
    (List.range' 1 n).foldl (fun opt j =>
      let penalty := getMismatchPenalty (charAt word1 (i - 1)) (charAt word2 (j - 1))
      set2 opt i j (min3
        (get2 opt (i - 1) (j - 1) + penalty)
        (get2 opt i (j - 1) + GAP_PENALTY)
        (get2 opt (i - 1) j + GAP_PENALTY))) opt) opt

/-- Source function `editDistance(word1, word2)` of SC.js: the entry `opt[m][n]`. -/
def editDistance (word1 word2 : List Char) : Nat :=
  get2 (editDistanceTable word1 word2) word1.length word2.length

end SC

/-- One ranked entry, the object with fields `word` and `distance`. -/
structure Suggestion where
  word : List Char
  distance : Nat
deriving DecidableEq, Repr

/-- The call `suggestions.sort((a, b) => a.distance - b.distance)`: `Array.prototype.sort` is a
stable sort, the comparator orders by ascending `distance`. -/
def sortByDistance (suggestions : List Suggestion) : List Suggestion :=
  List.insertionSort (fun a b => a.distance ≤ b.distance) suggestions

namespace SC

/-- The object of class `SpellChecker` of SC.js: its only field is the dictionary. -/
structure SpellChecker where
  dictionary : List (List Char)

/-- Source function `getTopSuggestions(word)` of SC.js. -/
def getTopSuggestions (self : SpellChecker) (word : List Char) : List Suggestion :=
  let suggestions := self.dictionary.map (fun dictWord =>
    ({ word := dictWord, distance := editDistance word dictWord } : Suggestion))
  (sortByDistance suggestions).take 10

end SC

/-! ## spell_checker.js -/

namespace spell_checker

/-- The table `dp` at the end of `editDistance(word1, word2)` of spell_checker.js. -/
def editDistanceTable (word1 word2 : List Char) : List (List Nat) :=
  let m := word1.length
  let n := word2.length
  let dp := mkTable m n
  let dp := (List.range (m + 1)).foldl (fun dp i => set2 dp i 0 i) dp
  let dp := (List.range (n + 1)).foldl (fun dp j => set2 dp 0 j j) dp
  (List.range' 1 m).foldl (fun dp i =>
    (List.range' 1 n).foldl (fun dp j =>
      if charAt word1 (i - 1) = charAt word2 (j - 1) then
        set2 dp i j (get2 dp (i - 1) (j - 1))
      else
        let substitution := get2 dp (i - 1) (j - 1) + 1
        let insertion := get2 dp i (j - 1) + 1
        let deletion := get2 dp (i - 1) j + 1
        set2 dp i j (min3 substitution insertion deletion)) dp) dp

/-- Source function `editDistance(word1, word2)` of spell_checker.js: the entry `dp[m][n]`. -/
def editDistance (word1 word2 : List Char) : Nat :=
  get2 (editDistanceTable word1 word2) word1.length word2.length

/-- The object of class `SpellChecker` of spell_checker.js; the constructor sets
`distanceThreshold = 2` and `maxSuggestions = 5` on an empty dictionary. -/
structure SpellChecker where
  dictionary : List (List Char)
  distanceThreshold : Int
  maxSuggestions : Nat

/-- The state built by `constructor()`. -/
def SpellChecker.new : SpellChecker :=
  { dictionary := [], distanceThreshold := 2, maxSuggestions := 5 }

/-- Source function `findSuggestions(misspelledWord)` of spell_checker.js. -/
def findSuggestions (self : SpellChecker) (misspelledWord : List Char) : List Suggestion :=
  if misspelledWord.length = 0 then []
  else
    let suggestions := self.dictionary.foldl (fun suggestions dictWord =>
      let distance := editDistance misspelledWord dictWord
      if (distance : Int) ≤ self.distanceThreshold then
        suggestions ++ [({ word := dictWord, distance := distance } : Suggestion)]
      else suggestions) []
    (sortByDistance suggestions).take self.maxSuggestions

end spell_checker

/-! ## Reference notions: the alignment recurrence and edit scripts -/

/-- One row of the alignment recurrence: the values for the word `c :: xs` against every
word `ys`, from the values `prev` for `xs`. -/
def dpRow (cell : Char → Char → Nat → Nat → Nat → Nat) (c : Char) (base : Nat)
    (prev : List Char → Nat) : List Char → Nat
  | [] => base
  | d :: ys => cell c d (prev ys) (dpRow cell c base prev ys) (prev (d :: ys))

/-- The alignment recurrence on words read from their last character backwards: borders
`length * g`, inner cells by `cell` from the diagonal, left and upper neighbours. -/
def dpRec (g : Nat) (cell : Char → Char → Nat → Nat → Nat → Nat) : List Char → List Char → Nat
  | [] => fun ys => ys.length * g
  | c :: xs => dpRow cell c ((xs.length + 1) * g) (dpRec g cell xs)

/-- The cell rule of SC.js. -/
def weightedCell (c d : Char) (diag left up : Nat) : Nat :=
  min3 (diag + SC.getMismatchPenalty c d) (left + SC.GAP_PENALTY) (up + SC.GAP_PENALTY)

/-- The cell rule of spell_checker.js. -/
def unitCell (c d : Char) (diag left up : Nat) : Nat :=
  if c = d then diag else min3 (diag + 1) (left + 1) (up + 1)

/-- The full three-way minimum with substitution cost 0 on a match. -/
def fullMinCell (c d : Char) (diag left up : Nat) : Nat :=
  min3 (diag + (if c = d then 0 else 1)) (left + 1) (up + 1)

/-- The table filled as in `editDistance` of spell_checker.js, but with every inner cell the
full three-way minimum `min(dp[i-1][j-1] + (0 on a match, else 1), dp[i][j-1] + 1, dp[i-1][j] + 1)`. -/
def fullMinTable (word1 word2 : List Char) : List (List Nat) :=
  let m := word1.length
  let n := word2.length
  let dp := mkTable m n
  let dp := (List.range (m + 1)).foldl (fun dp i => set2 dp i 0 i) dp
  let dp := (List.range (n + 1)).foldl (fun dp j => set2 dp 0 j j) dp
  (List.range' 1 m).foldl (fun dp i =>
    (List.range' 1 n).foldl (fun dp j =>
      set2 dp i j (fullMinCell (charAt word1 (i - 1)) (charAt word2 (j - 1))
        (get2 dp (i - 1) (j - 1)) (get2 dp i (j - 1)) (get2 dp (i - 1) j))) dp) dp

/-- One step of an alignment of a word `a` with a word `b`. -/
inductive EditOp where
  | keep (c : Char)
  | subst (x y : Char)
  | insert (y : Char)
  | delete (x : Char)
deriving DecidableEq, Repr

/-- A substitution replaces a character by a different one. -/
def EditOp.valid : EditOp → Bool
  | .subst x y => decide (x ≠ y)
  | _ => true

/-- The word an alignment starts from. -/
def scriptSource : List EditOp → List Char
  | [] => []
  | .keep c :: r => c :: scriptSource r
  | .subst x _ :: r => x :: scriptSource r
  | .insert _ :: r => scriptSource r
  | .delete x :: r => x :: scriptSource r

/-- The word an alignment produces. -/
def scriptTarget : List EditOp → List Char
  | [] => []
  | .keep c :: r => c :: scriptTarget r
  | .subst _ y :: r => y :: scriptTarget r
  | .insert y :: r => y :: scriptTarget r
  | .delete _ :: r => scriptTarget r

/-- The sequence `ops` is an alignment of `a` with `b`: it turns `a` into `b`. -/
def Aligns (ops : List EditOp) (a b : List Char) : Prop :=
  ops.all EditOp.valid = true ∧ scriptSource ops = a ∧ scriptTarget ops = b

instance (ops : List EditOp) (a b : List Char) : Decidable (Aligns ops a b) := by
  unfold Aligns; infer_instance

/-- A character is a vowel when it is one of a, e, i, o, u; every other character counts as a
consonant. -/
def inVowels (c : Char) : Bool :=
  c = 'a' || c = 'e' || c = 'i' || c = 'o' || c = 'u'

/-- The weighted cost of one step: a match 0, a substitution inside one class 1, across the
classes 3, an inserted or deleted character 2. -/
def weightedOpCost : EditOp → Nat
  | .keep _ => 0
  | .subst x y => if inVowels x = inVowels y then 1 else 3
  | .insert _ => 2
  | .delete _ => 2

/-- The total weighted cost of an alignment. -/
def weightedCost (ops : List EditOp) : Nat := (ops.map weightedOpCost).sum

/-- The unit cost of one step: a match 0, every insertion, deletion and substitution 1. -/
def unitOpCost : EditOp → Nat
  | .keep _ => 0
  | _ => 1

/-- The number of insertions, deletions and substitutions of an alignment. -/
def unitCost (ops : List EditOp) : Nat := (ops.map unitOpCost).sum

/-- The cost of one step under a substitution table `pen` and a gap cost `g`. -/
def opCost (pen : Char → Char → Nat) (g : Nat) : EditOp → Nat
  | .keep _ => 0
  | .subst x y => pen x y
  | .insert _ => g
  | .delete _ => g

/-- The total cost of an alignment under `pen` and `g`. -/
def scriptCost (pen : Char → Char → Nat) (g : Nat) (ops : List EditOp) : Nat :=
  (ops.map (opCost pen g)).sum

/-- The three-way minimum cell rule under `pen` and `g`. -/
def minCell (pen : Char → Char → Nat) (g : Nat) (c d : Char) (diag left up : Nat) : Nat :=
  min3 (diag + pen c d) (left + g) (up + g)

/-- The sum of the substitution penalties of two words read position by position. -/
def diagCost (pen : Char → Char → Nat) : List Char → List Char → Nat
  | c :: xs, d :: ys => pen c d + diagCost pen xs ys
  | _, _ => 0

/-- The table has `m + 1` rows of `n + 1` entries each. -/
def TableDim (t : List (List Nat)) (m n : Nat) : Prop :=
  t.length = m + 1 ∧ ∀ row ∈ t, row.length = n + 1

/-- The common shape of the three table-filling loops: borders `i * g` and `j * g`, inner cells
by `cell` from the characters and the diagonal, left and upper neighbours. -/
def fillTable (g : Nat) (cell : Char → Char → Nat → Nat → Nat → Nat)
    (word1 word2 : List Char) : List (List Nat) :=
  let m := word1.length
  let n := word2.length
  let dp := mkTable m n
  let dp := (List.range (m + 1)).foldl (fun dp i => set2 dp i 0 (i * g)) dp
  let dp := (List.range (n + 1)).foldl (fun dp j => set2 dp 0 j (j * g)) dp
  (List.range' 1 m).foldl (fun dp i =>
    (List.range' 1 n).foldl (fun dp j =>
      set2 dp i j (cell (charAt word1 (i - 1)) (charAt word2 (j - 1))
        (get2 dp (i - 1) (j - 1)) (get2 dp i (j - 1)) (get2 dp (i - 1) j))) dp) dp

/-- The loop invariant of the table-filling loops: the table has its dimensions, and every
cell of column 0, of the rows up to `k` and of the first `l` columns of row `k + 1` holds the
value of the recurrence for the corresponding prefixes. -/
def FilledUpTo (g : Nat) (cell : Char → Char → Nat → Nat → Nat → Nat) (a b : List Char)
    (k l : Nat) (t : List (List Nat)) : Prop :=
  TableDim t a.length b.length ∧
  ∀ i j, i ≤ a.length → j ≤ b.length → (i ≤ k ∨ j = 0 ∨ (i = k + 1 ∧ j ≤ l)) →
    get2 t i j = dpRec g cell (a.take i).reverse (b.take j).reverse

/-- The substitution table of the Levenshtein distance: 0 on a match, 1 otherwise. -/
def unitPen (c d : Char) : Nat := if c = d then 0 else 1

/-- The state built by `constructor()` of SC.js. -/
def SC.SpellChecker.new : SC.SpellChecker := { dictionary := [] }

/-- The candidates of `findSuggestions` for a query: the dictionary entries whose distance is at
most `distanceThreshold`, in dictionary order, each with its distance. -/
def spell_checker.candidates (self : spell_checker.SpellChecker) (query : List Char) :
    List Suggestion :=
  (self.dictionary.filter (fun d =>
      decide ((spell_checker.editDistance query d : Int) ≤ self.distanceThreshold))).map
    (fun d => ({ word := d, distance := spell_checker.editDistance query d } : Suggestion))

/-- The candidates of `getTopSuggestions` for a query: every dictionary entry, in dictionary
order, with its weighted distance. -/
def SC.candidates (self : SC.SpellChecker) (query : List Char) : List Suggestion :=
  self.dictionary.map (fun d => ({ word := d, distance := SC.editDistance query d } : Suggestion))

/-! ## checkText of spell_checker.js -/

/-- The word characters of the regular-expression assertion `\b`: letters, digits, underscore. -/
def isWordChar (c : Char) : Bool := c.isAlphanum || c = '_'

/-- The character class `[a-z'-]` of the pattern. -/
def inWordClass (c : Char) : Bool := c.isLower || c = Char.ofNat 39 || c = '-'

/-- Whether the character before the current position, if any, is a word character. -/
def wordCharBefore : Option Char → Bool
  | none => false
  | some c => isWordChar c

/-- Whether the character at the current position, if any, is a word character. -/
def wordCharAt : List Char → Bool
  | [] => false
  | c :: _ => isWordChar c

/-- The assertion `\b` at a position, given the character before it and the rest of the text:
exactly one of the two neighbours is a word character. -/
def atBoundary (prev : Option Char) (rest : List Char) : Bool :=
  wordCharBefore prev != wordCharAt rest

/-- The greedy repetition `[a-z'-]*` followed by `\b`, with backtracking: the largest number of
leading class characters of `rest` after which the assertion `\b` holds, if there is one. -/
def matchExtent (prev : Option Char) : List Char → Option Nat
  | [] => if atBoundary prev [] then some 0 else none
  | c :: r =>
    if inWordClass c then
      match matchExtent (some c) r with
      | some j => some (j + 1)
      | none => if atBoundary prev (c :: r) then some 0 else none
    else if atBoundary prev (c :: r) then some 0 else none

/-- The global search for `/\b[a-z'-]+\b/g` from a position on: `skip` characters still belong
to the previous match; otherwise a match is tried at the position and, when it fails, the
search moves on by one character. -/
def scanWords : Nat → Option Char → List Char → List (List Char)
  | _, _, [] => []
  | skip + 1, _, c :: r => scanWords skip (some c) r
  | 0, prev, c :: r =>
    if atBoundary prev (c :: r) && inWordClass c then
      match matchExtent (some c) r with
      | some j => (c :: r.take j) :: scanWords j (some c) r
      | none => scanWords 0 (some c) r
    else scanWords 0 (some c) r

/-- The expression `s.match(/\b[a-z'-]+\b/g) || []`: all matches, left to right. -/
def matchWords (s : List Char) : List (List Char) := scanWords 0 none s

/-- The function `String.prototype.toLowerCase` on a text whose only cased characters are the
letters A to Z. -/
def asciiLower (text : List Char) : List Char := text.map Char.toLower

namespace spell_checker

/-- The truth value of the read `results[word]` on the object `results`, created as `{}`: an
own property holds a list of suggestions, which is truthy; a name that is not an own property
is looked up on `Object.prototype`, where among the words matched by the pattern only
`constructor` is defined. -/
def lookupTruthy (results : List (List Char × List Suggestion)) (word : List Char) : Bool :=
  results.any (fun e => decide (e.1 = word)) || decide (word = "constructor".toList)

/-- The assignment `results[word] = suggestions`: the value of an own property is replaced, a
new property is added after the existing ones. -/
def assign (results : List (List Char × List Suggestion)) (word : List Char)
    (suggestions : List Suggestion) : List (List Char × List Suggestion) :=
  if results.any (fun e => decide (e.1 = word)) then
    results.map (fun e => if e.1 = word then (word, suggestions) else e)
  else results ++ [(word, suggestions)]

/-- The loop of `checkText` over the matched words, from the empty object `results`. -/
def checkWords (self : SpellChecker) (words : List (List Char)) :
    List (List Char × List Suggestion) :=
  words.foldl (fun results word =>
    if lookupTruthy results word || self.dictionary.contains word then results
    else
      let suggestions := findSuggestions self word
      if suggestions.length > 0 then assign results word suggestions else results) []

/-- Source function `checkText(text)` of spell_checker.js; `toLowerCase` is the library function
`String.prototype.toLowerCase`, and the object returned is the list of its properties in the
order of their creation. -/
def checkText (toLowerCase : List Char → List Char) (self : SpellChecker) (text : List Char) :
    List (List Char × List Suggestion) :=
  let words := matchWords (toLowerCase text)
  checkWords self words

end spell_checker

/-- One pass of the loop body of `checkText` for the word `word`. -/
def spell_checker.checkStep (self : spell_checker.SpellChecker)
    (results : List (List Char × List Suggestion)) (word : List Char) :
    List (List Char × List Suggestion) :=
  if spell_checker.lookupTruthy results word || self.dictionary.contains word then results
  else
    let suggestions := spell_checker.findSuggestions self word
    if suggestions.length > 0 then spell_checker.assign results word suggestions else results

/-- The loop invariant of `checkText` after the words `seen`: every property of `results` is a
word seen, not in the dictionary, other than `constructor`, with its non-empty list of
suggestions; every such word seen is a property; no property occurs twice. -/
def spell_checker.CheckInv (self : spell_checker.SpellChecker) (seen : List (List Char))
    (results : List (List Char × List Suggestion)) : Prop :=
  (∀ e ∈ results, e.2 = spell_checker.findSuggestions self e.1 ∧ e.1 ∈ seen ∧
    e.1 ∉ self.dictionary ∧ e.2 ≠ [] ∧ e.1 ≠ "constructor".toList) ∧
  (∀ w ∈ seen, w ≠ "constructor".toList → w ∉ self.dictionary →
    spell_checker.findSuggestions self w ≠ [] → w ∈ results.map (fun e => e.1)) ∧
  (results.map (fun e => e.1)).Nodup

/-! ## Tests on concrete inputs -/

theorem SC.editDistance_cat_cats : SC.editDistance "cat".toList "cats".toList = 2 := by decide

theorem SC.editDistance_empty_abc : SC.editDistance "".toList "abc".toList = 6 := by decide

theorem SC.editDistance_cat_bat : SC.editDistance "cat".toList "bat".toList = 1 := by decide

theorem SC.editDistance_a_e : SC.editDistance "a".toList "e".toList = 1 := by decide

theorem SC.editDistance_a_b : SC.editDistance "a".toList "b".toList = 3 := by decide

theorem SC.editDistance_speling_spelling :
    SC.editDistance "speling".toList "spelling".toList = 2 := by decide

theorem spell_checker.editDistance_kitten_sitting :
    spell_checker.editDistance "kitten".toList "sitting".toList = 3 := by decide

/-! ## Reading and writing table cells -/

theorem getD_set_self {α : Type} (l : List α) {i : Nat} (h : i < l.length) (a d : α) :
    (l.set i a).getD i d = a := by
  rw [List.getD_eq_getElem?_getD, List.getElem?_set_self h]
  rfl

theorem getD_set_ne {α : Type} (l : List α) {i j : Nat} (h : i ≠ j) (a d : α) :
    (l.set i a).getD j d = l.getD j d := by
  rw [List.getD_eq_getElem?_getD, List.getElem?_set_ne h, ← List.getD_eq_getElem?_getD]

theorem get2_mkTable (m n i j : Nat) : get2 (mkTable m n) i j = 0 := by
  unfold get2 mkTable
  simp only [List.getD_eq_getElem?_getD, List.getElem?_replicate]
  split
  · simp only [Option.getD_some, List.getElem?_replicate]
    split <;> rfl
  · rfl

theorem tableDim_mkTable (m n : Nat) : TableDim (mkTable m n) m n := by
  refine ⟨by simp [mkTable], ?_⟩
  intro row hrow
  have := List.eq_of_mem_replicate hrow
  simp [this]

theorem tableDim_row {t : List (List Nat)} {m n : Nat} (h : TableDim t m n) {i : Nat}
    (hi : i ≤ m) : (t.getD i []).length = n + 1 := by
  have hlen : i < t.length := by rw [h.1]; omega
  rw [List.getD_eq_getElem?_getD, List.getElem?_eq_getElem hlen]
  exact h.2 _ (List.getElem_mem _)

theorem tableDim_set2 {t : List (List Nat)} {m n : Nat} (h : TableDim t m n) (i j v : Nat) :
    TableDim (set2 t i j v) m n := by
  refine ⟨by simp [set2, h.1], ?_⟩
  intro row hrow
  by_cases hi : i ≤ m
  · rcases List.mem_or_eq_of_mem_set hrow with hmem | heq
    · exact h.2 row hmem
    · rw [heq, List.length_set]
      exact tableDim_row h hi
  · have hlen : t.length ≤ i := by rw [h.1]; omega
    rw [set2, List.set_eq_of_length_le hlen] at hrow
    exact h.2 row hrow

theorem get2_set2_self {t : List (List Nat)} {m n : Nat} (h : TableDim t m n) {i j : Nat}
    (hi : i ≤ m) (hj : j ≤ n) (v : Nat) : get2 (set2 t i j v) i j = v := by
  have hlen : i < t.length := by rw [h.1]; omega
  have hrow := tableDim_row h hi
  unfold get2 set2
  rw [getD_set_self t hlen, getD_set_self _ (by omega)]

theorem get2_set2_of_ne (t : List (List Nat)) {i j p q : Nat} (h : p ≠ i ∨ q ≠ j) (v : Nat) :
    get2 (set2 t i j v) p q = get2 t p q := by
  unfold get2 set2
  by_cases hp : p = i
  · subst hp
    have hq : q ≠ j := by
      rcases h with h | h
      · exact absurd rfl h
      · exact h
    by_cases hlen : p < t.length
    · rw [getD_set_self t hlen, getD_set_ne _ (Ne.symm hq)]
    · rw [List.set_eq_of_length_le (Nat.le_of_not_lt hlen)]
  · rw [getD_set_ne t (Ne.symm hp)]

/-! ## Loop invariants -/

theorem foldl_range'_inv {β : Type} (P : Nat → β → Prop) (f : β → Nat → β) (s : Nat) :
    ∀ (n : Nat) (b : β), P 0 b →
      (∀ k t, k < n → P k t → P (k + 1) (f t (s + k))) →
      P n ((List.range' s n).foldl f b) := by
  intro n
  induction n with
  | zero => intro b h0 _; simpa using h0
  | succ n ih =>
    intro b h0 hstep
    rw [List.range'_concat, List.foldl_append]
    simp only [Nat.one_mul, List.foldl_cons, List.foldl_nil]
    exact hstep n _ (Nat.lt_succ_self n)
      (ih b h0 (fun k t hk hP => hstep k t (Nat.lt_succ_of_lt hk) hP))

theorem border_rows_inv (g m n : Nat) (t : List (List Nat)) (ht : TableDim t m n) :
    TableDim ((List.range (m + 1)).foldl (fun dp i => set2 dp i 0 (i * g)) t) m n ∧
    ∀ i, i ≤ m →
      get2 ((List.range (m + 1)).foldl (fun dp i => set2 dp i 0 (i * g)) t) i 0 = i * g := by
  rw [List.range_eq_range']
  have key := foldl_range'_inv
    (fun k dp => TableDim dp m n ∧ ∀ i, i < k → get2 dp i 0 = i * g)
    (fun dp i => set2 dp i 0 (i * g)) 0 (m + 1) t ⟨ht, fun i hi => absurd hi (Nat.not_lt_zero i)⟩
    (by
      intro k dp hk ⟨hdim, hval⟩
      refine ⟨tableDim_set2 hdim _ _ _, ?_⟩
      intro i hi
      rw [Nat.zero_add]
      by_cases hik : i = k
      · subst hik
        exact get2_set2_self hdim (by omega) (Nat.zero_le n) _
      · rw [get2_set2_of_ne dp (Or.inl hik)]
        exact hval i (by omega))
  exact ⟨key.1, fun i hi => key.2 i (by omega)⟩

theorem border_cols_inv (g m n : Nat) (t : List (List Nat)) (ht : TableDim t m n)
    (hcol : ∀ i, i ≤ m → get2 t i 0 = i * g) :
    TableDim ((List.range (n + 1)).foldl (fun dp j => set2 dp 0 j (j * g)) t) m n ∧
    (∀ i, i ≤ m →
      get2 ((List.range (n + 1)).foldl (fun dp j => set2 dp 0 j (j * g)) t) i 0 = i * g) ∧
    ∀ j, j ≤ n →
      get2 ((List.range (n + 1)).foldl (fun dp j => set2 dp 0 j (j * g)) t) 0 j = j * g := by
  rw [List.range_eq_range']
  have key := foldl_range'_inv
    (fun k dp => TableDim dp m n ∧ (∀ i, i ≤ m → get2 dp i 0 = i * g) ∧
      ∀ j, j < k → get2 dp 0 j = j * g)
    (fun dp j => set2 dp 0 j (j * g)) 0 (n + 1) t
    ⟨ht, hcol, fun j hj => absurd hj (Nat.not_lt_zero j)⟩
    (by
      intro k dp hk ⟨hdim, hc, hr⟩
      rw [Nat.zero_add]
      refine ⟨tableDim_set2 hdim _ _ _, ?_, ?_⟩
      · intro i hi
        by_cases h0 : i = 0 ∧ k = 0
        · obtain ⟨hi0, hk0⟩ := h0
          subst hi0; subst hk0
          exact get2_set2_self hdim (Nat.zero_le m) (Nat.zero_le n) _
        · rw [get2_set2_of_ne dp (by omega)]
          exact hc i hi
      · intro j hj
        by_cases hjk : j = k
        · subst hjk
          exact get2_set2_self hdim (Nat.zero_le m) (by omega) _
        · rw [get2_set2_of_ne dp (Or.inr hjk)]
          exact hr j (by omega))
  exact ⟨key.1, key.2.1, fun j hj => key.2.2 j (by omega)⟩

theorem dpRec_nil_right (g : Nat) (cell : Char → Char → Nat → Nat → Nat → Nat)
    (xs : List Char) : dpRec g cell xs [] = xs.length * g := by
  cases xs <;> rfl

theorem dpRec_cons_cons (g : Nat) (cell : Char → Char → Nat → Nat → Nat → Nat)
    (c d : Char) (xs ys : List Char) :
    dpRec g cell (c :: xs) (d :: ys) =
      cell c d (dpRec g cell xs ys) (dpRec g cell (c :: xs) ys) (dpRec g cell xs (d :: ys)) :=
  rfl

theorem reverse_take_succ (a : List Char) {k : Nat} (hk : k < a.length) :
    (a.take (k + 1)).reverse = charAt a k :: (a.take k).reverse := by
  rw [List.take_succ, List.getElem?_eq_getElem hk, charAt, List.getD_eq_getElem _ _ hk]
  simp

/-- The value the recurrence assigns to cell `(i, j)` of the table for `a` and `b`. -/
theorem cellValue_succ (g : Nat) (cell : Char → Char → Nat → Nat → Nat → Nat)
    (a b : List Char) {k l : Nat} (hk : k < a.length) (hl : l < b.length) :
    dpRec g cell (a.take (k + 1)).reverse (b.take (l + 1)).reverse =
      cell (charAt a k) (charAt b l)
        (dpRec g cell (a.take k).reverse (b.take l).reverse)
        (dpRec g cell (a.take (k + 1)).reverse (b.take l).reverse)
        (dpRec g cell (a.take k).reverse (b.take (l + 1)).reverse) := by
  rw [reverse_take_succ a hk, reverse_take_succ b hl, dpRec_cons_cons]

theorem filledUpTo_cell (g : Nat) (cell : Char → Char → Nat → Nat → Nat → Nat) (a b : List Char)
    {k l : Nat} (hk : k < a.length) (hl : l < b.length) {t : List (List Nat)}
    (h : FilledUpTo g cell a b k l t) :
    FilledUpTo g cell a b k (l + 1)
      (set2 t (k + 1) (l + 1) (cell (charAt a k) (charAt b l)
        (get2 t k l) (get2 t (k + 1) l) (get2 t k (l + 1)))) := by
  obtain ⟨hdim, hval⟩ := h
  refine ⟨tableDim_set2 hdim _ _ _, ?_⟩
  intro i j hi hj hdone
  by_cases hij : i = k + 1 ∧ j = l + 1
  · obtain ⟨hi1, hj1⟩ := hij
    subst hi1; subst hj1
    rw [get2_set2_self hdim hi hj, cellValue_succ g cell a b hk hl,
      hval k l (by omega) (by omega) (by omega),
      hval (k + 1) l (by omega) (by omega) (by omega),
      hval k (l + 1) (by omega) (by omega) (by omega)]
  · rw [get2_set2_of_ne t (by omega)]
    exact hval i j hi hj (by omega)

theorem filledUpTo_row (g : Nat) (cell : Char → Char → Nat → Nat → Nat → Nat) (a b : List Char)
    {k : Nat} (hk : k < a.length) {t : List (List Nat)} (h : FilledUpTo g cell a b k 0 t) :
    FilledUpTo g cell a b (k + 1) 0
      ((List.range' 1 b.length).foldl (fun dp j =>
        set2 dp (k + 1) j (cell (charAt a (k + 1 - 1)) (charAt b (j - 1))
          (get2 dp (k + 1 - 1) (j - 1)) (get2 dp (k + 1) (j - 1)) (get2 dp (k + 1 - 1) j))) t) := by
  have key := foldl_range'_inv (fun l dp => FilledUpTo g cell a b k l dp)
    (fun dp j =>
        set2 dp (k + 1) j (cell (charAt a (k + 1 - 1)) (charAt b (j - 1))
          (get2 dp (k + 1 - 1) (j - 1)) (get2 dp (k + 1) (j - 1)) (get2 dp (k + 1 - 1) j)))
    1 b.length t h
    (by
      intro l dp hl hdp
      have e1 : k + 1 - 1 = k := by omega
      have e2 : 1 + l - 1 = l := by omega
      have e3 : 1 + l = l + 1 := by omega
      simp only [e1, e2, e3]
      exact filledUpTo_cell g cell a b hk hl hdp)
  obtain ⟨hdim, hval⟩ := key
  exact ⟨hdim, fun i j hi hj hdone => hval i j hi hj (by omega)⟩

theorem filledUpTo_fillTable (g : Nat) (cell : Char → Char → Nat → Nat → Nat → Nat)
    (a b : List Char) : FilledUpTo g cell a b a.length 0 (fillTable g cell a b) := by
  unfold fillTable
  have h1 := border_rows_inv g a.length b.length _ (tableDim_mkTable a.length b.length)
  have h2 := border_cols_inv g a.length b.length _ h1.1 h1.2
  have h0 : FilledUpTo g cell a b 0 0
      ((List.range (b.length + 1)).foldl (fun dp j => set2 dp 0 j (j * g))
        ((List.range (a.length + 1)).foldl (fun dp i => set2 dp i 0 (i * g))
          (mkTable a.length b.length))) := by
    refine ⟨h2.1, ?_⟩
    intro i j hi hj hdone
    have hcases : i = 0 ∨ j = 0 := by omega
    rcases hcases with h | h
    · subst h
      rw [h2.2.2 j hj]
      simp [dpRec, Nat.min_eq_left hj]
    · subst h
      rw [h2.2.1 i hi]
      simp [dpRec_nil_right, Nat.min_eq_left hi]
  exact foldl_range'_inv (fun k dp => FilledUpTo g cell a b k 0 dp) _ 1 a.length _ h0
    (by
      intro k dp hk hdp
      have e3 : 1 + k = k + 1 := by omega
      simp only [e3]
      exact filledUpTo_row g cell a b hk hdp)

/-- Every cell of the filled table holds the recurrence on the reversed prefixes. -/
theorem get2_fillTable (g : Nat) (cell : Char → Char → Nat → Nat → Nat → Nat)
    (a b : List Char) {i j : Nat} (hi : i ≤ a.length) (hj : j ≤ b.length) :
    get2 (fillTable g cell a b) i j = dpRec g cell (a.take i).reverse (b.take j).reverse :=
  (filledUpTo_fillTable g cell a b).2 i j hi hj (Or.inl hi)

theorem tableDim_fillTable (g : Nat) (cell : Char → Char → Nat → Nat → Nat → Nat)
    (a b : List Char) : TableDim (fillTable g cell a b) a.length b.length :=
  (filledUpTo_fillTable g cell a b).1

theorem get2_fillTable_last (g : Nat) (cell : Char → Char → Nat → Nat → Nat → Nat)
    (a b : List Char) :
    get2 (fillTable g cell a b) a.length b.length = dpRec g cell a.reverse b.reverse := by
  rw [get2_fillTable g cell a b (Nat.le_refl _) (Nat.le_refl _), List.take_length,
    List.take_length]

/-! ## The three tables of the sources are instances of the common loop -/

theorem SC.weightedTable_eq_fillTable (a b : List Char) :
    SC.editDistanceTable a b = fillTable 2 weightedCell a b := rfl

theorem spell_checker.unitTable_eq_fillTable (a b : List Char) :
    spell_checker.editDistanceTable a b = fillTable 1 unitCell a b := by
  unfold spell_checker.editDistanceTable fillTable unitCell
  simp only [Nat.mul_one]
  congr 1
  funext dp i
  congr 1
  funext dp j
  split <;> rfl

theorem fullMinTable_eq (a b : List Char) :
    fullMinTable a b = fillTable 1 fullMinCell a b := by
  unfold fullMinTable fillTable
  simp only [Nat.mul_one]

theorem SC.weightedDistance_eq_rec (a b : List Char) :
    SC.editDistance a b = dpRec 2 weightedCell a.reverse b.reverse := by
  unfold SC.editDistance
  rw [SC.weightedTable_eq_fillTable, get2_fillTable_last]

theorem spell_checker.unitDistance_eq_rec (a b : List Char) :
    spell_checker.editDistance a b = dpRec 1 unitCell a.reverse b.reverse := by
  unfold spell_checker.editDistance
  rw [spell_checker.unitTable_eq_fillTable, get2_fillTable_last]

/-! ## The recurrence is the minimum cost over all alignments -/

theorem min3_le_first (a b c : Nat) : min3 a b c ≤ a := by unfold min3; omega

theorem min3_le_second (a b c : Nat) : min3 a b c ≤ b := by unfold min3; omega

theorem min3_le_third (a b c : Nat) : min3 a b c ≤ c := by unfold min3; omega

theorem min3_cases (a b c : Nat) : min3 a b c = a ∨ min3 a b c = b ∨ min3 a b c = c := by
  unfold min3; omega

theorem le_min3 {x a b c : Nat} (ha : x ≤ a) (hb : x ≤ b) (hc : x ≤ c) : x ≤ min3 a b c := by
  unfold min3; omega

theorem dpRec_nil_left (g : Nat) (cell : Char → Char → Nat → Nat → Nat → Nat)
    (ys : List Char) : dpRec g cell [] ys = ys.length * g := rfl

theorem minRec_insert_le (pen : Char → Char → Nat) (g : Nat) (x : List Char) (d : Char)
    (y : List Char) :
    dpRec g (minCell pen g) x (d :: y) ≤ dpRec g (minCell pen g) x y + g := by
  cases x with
  | nil => simp [dpRec_nil_left, Nat.add_mul]
  | cons c x => rw [dpRec_cons_cons]; exact min3_le_second _ _ _

theorem minRec_delete_le (pen : Char → Char → Nat) (g : Nat) (c : Char) (x y : List Char) :
    dpRec g (minCell pen g) (c :: x) y ≤ dpRec g (minCell pen g) x y + g := by
  cases y with
  | nil => simp [dpRec_nil_right, Nat.add_mul]
  | cons d y => rw [dpRec_cons_cons]; exact min3_le_third _ _ _

theorem minRec_subst_le (pen : Char → Char → Nat) (g : Nat) (c d : Char) (x y : List Char) :
    dpRec g (minCell pen g) (c :: x) (d :: y) ≤ dpRec g (minCell pen g) x y + pen c d := by
  rw [dpRec_cons_cons]; exact min3_le_first _ _ _

theorem scriptCost_cons (pen : Char → Char → Nat) (g : Nat) (op : EditOp) (r : List EditOp) :
    scriptCost pen g (op :: r) = opCost pen g op + scriptCost pen g r := by
  simp [scriptCost]

/-- No alignment is cheaper than the value of the recurrence. -/
theorem minRec_le_scriptCost (pen : Char → Char → Nat) (g : Nat) (hpen : ∀ c, pen c c = 0) :
    ∀ ops : List EditOp,
      dpRec g (minCell pen g) (scriptSource ops) (scriptTarget ops) ≤ scriptCost pen g ops := by
  intro ops
  induction ops with
  | nil => simp [scriptSource, scriptTarget, scriptCost, dpRec]
  | cons op r ih =>
    rw [scriptCost_cons]
    cases op with
    | keep c =>
      have := minRec_subst_le pen g c c (scriptSource r) (scriptTarget r)
      rw [hpen c] at this
      simp only [scriptSource, scriptTarget, opCost]
      omega
    | subst x y =>
      have := minRec_subst_le pen g x y (scriptSource r) (scriptTarget r)
      simp only [scriptSource, scriptTarget, opCost]
      omega
    | insert y =>
      have := minRec_insert_le pen g (scriptSource r) y (scriptTarget r)
      simp only [scriptSource, scriptTarget, opCost]
      omega
    | delete x =>
      have := minRec_delete_le pen g x (scriptSource r) (scriptTarget r)
      simp only [scriptSource, scriptTarget, opCost]
      omega

/-- Some alignment, with substitutions between distinct characters only, has exactly the cost
given by the recurrence. -/
theorem exists_script_minRec (pen : Char → Char → Nat) (g : Nat) (hpen : ∀ c, pen c c = 0) :
    ∀ x y : List Char, ∃ ops : List EditOp,
      Aligns ops x y ∧ scriptCost pen g ops = dpRec g (minCell pen g) x y := by
  intro x
  induction x with
  | nil =>
    intro y
    induction y with
    | nil => exact ⟨[], by simp [Aligns, scriptSource, scriptTarget], by simp [scriptCost, dpRec]⟩
    | cons d y ih =>
      obtain ⟨ops, ⟨hv, hs, ht⟩, hc⟩ := ih
      refine ⟨EditOp.insert d :: ops, ⟨?_, ?_, ?_⟩, ?_⟩
      · simpa [EditOp.valid] using hv
      · simpa [scriptSource] using hs
      · simpa [scriptTarget] using ht
      · rw [scriptCost_cons, hc]
        simp [opCost, dpRec_nil_left, Nat.add_mul, Nat.add_comm]
  | cons c x ihx =>
    intro y
    induction y with
    | nil =>
      obtain ⟨ops, ⟨hv, hs, ht⟩, hc⟩ := ihx []
      refine ⟨EditOp.delete c :: ops, ⟨?_, ?_, ?_⟩, ?_⟩
      · simpa [EditOp.valid] using hv
      · simpa [scriptSource] using hs
      · simpa [scriptTarget] using ht
      · rw [scriptCost_cons, hc]
        simp [opCost, dpRec_nil_right, Nat.add_mul, Nat.add_comm]
    | cons d y ihy =>
      rw [dpRec_cons_cons]
      rcases min3_cases (dpRec g (minCell pen g) x y + pen c d)
        (dpRec g (minCell pen g) (c :: x) y + g)
        (dpRec g (minCell pen g) x (d :: y) + g) with h | h | h
      · obtain ⟨ops, ⟨hv, hs, ht⟩, hc⟩ := ihx y
        by_cases hcd : c = d
        · subst hcd
          refine ⟨EditOp.keep c :: ops, ⟨?_, ?_, ?_⟩, ?_⟩
          · simpa [EditOp.valid] using hv
          · simpa [scriptSource] using hs
          · simpa [scriptTarget] using ht
          · rw [scriptCost_cons, hc, minCell, h, hpen c]
            simp [opCost]
        · refine ⟨EditOp.subst c d :: ops, ⟨?_, ?_, ?_⟩, ?_⟩
          · simpa [EditOp.valid, hcd] using hv
          · simpa [scriptSource] using hs
          · simpa [scriptTarget] using ht
          · rw [scriptCost_cons, hc, minCell, h]
            simp [opCost, Nat.add_comm]
      · obtain ⟨ops, ⟨hv, hs, ht⟩, hc⟩ := ihy
        refine ⟨EditOp.insert d :: ops, ⟨?_, ?_, ?_⟩, ?_⟩
        · simpa [EditOp.valid] using hv
        · simpa [scriptSource] using hs
        · simpa [scriptTarget] using ht
        · rw [scriptCost_cons, hc, minCell, h]
          simp [opCost, Nat.add_comm]
      · obtain ⟨ops, ⟨hv, hs, ht⟩, hc⟩ := ihx (d :: y)
        refine ⟨EditOp.delete c :: ops, ⟨?_, ?_, ?_⟩, ?_⟩
        · simpa [EditOp.valid] using hv
        · simpa [scriptSource] using hs
        · simpa [scriptTarget] using ht
        · rw [scriptCost_cons, hc, minCell, h]
          simp [opCost, Nat.add_comm]

/-! ## Alignments read backwards -/

theorem scriptSource_append (p q : List EditOp) :
    scriptSource (p ++ q) = scriptSource p ++ scriptSource q := by
  induction p with
  | nil => rfl
  | cons op r ih => cases op <;> simp [scriptSource, ih]

theorem scriptTarget_append (p q : List EditOp) :
    scriptTarget (p ++ q) = scriptTarget p ++ scriptTarget q := by
  induction p with
  | nil => rfl
  | cons op r ih => cases op <;> simp [scriptTarget, ih]

theorem scriptSource_reverse (ops : List EditOp) :
    scriptSource ops.reverse = (scriptSource ops).reverse := by
  induction ops with
  | nil => rfl
  | cons op r ih =>
    rw [List.reverse_cons, scriptSource_append, ih]
    cases op <;> simp [scriptSource]

theorem scriptTarget_reverse (ops : List EditOp) :
    scriptTarget ops.reverse = (scriptTarget ops).reverse := by
  induction ops with
  | nil => rfl
  | cons op r ih =>
    rw [List.reverse_cons, scriptTarget_append, ih]
    cases op <;> simp [scriptTarget]

theorem aligns_reverse {ops : List EditOp} {a b : List Char} (h : Aligns ops a b) :
    Aligns ops.reverse a.reverse b.reverse := by
  obtain ⟨hv, hs, ht⟩ := h
  refine ⟨?_, ?_, ?_⟩
  · simpa using hv
  · rw [scriptSource_reverse, hs]
  · rw [scriptTarget_reverse, ht]

theorem scriptCost_reverse (pen : Char → Char → Nat) (g : Nat) (ops : List EditOp) :
    scriptCost pen g ops.reverse = scriptCost pen g ops := by
  unfold scriptCost
  rw [List.map_reverse, List.sum_reverse]

/-- The value of the recurrence on `a` and `b` themselves is the minimum alignment cost. -/
theorem minRec_reverse_is_min (pen : Char → Char → Nat) (g : Nat) (hpen : ∀ c, pen c c = 0)
    (a b : List Char) :
    (∃ ops, Aligns ops a b ∧ scriptCost pen g ops = dpRec g (minCell pen g) a.reverse b.reverse) ∧
    ∀ ops, scriptSource ops = a → scriptTarget ops = b →
      dpRec g (minCell pen g) a.reverse b.reverse ≤ scriptCost pen g ops := by
  constructor
  · obtain ⟨ops, hal, hc⟩ := exists_script_minRec pen g hpen a.reverse b.reverse
    refine ⟨ops.reverse, ?_, ?_⟩
    · simpa using aligns_reverse hal
    · rw [scriptCost_reverse, hc]
  · intro ops hs ht
    have := minRec_le_scriptCost pen g hpen ops.reverse
    rw [scriptSource_reverse, scriptTarget_reverse, hs, ht, scriptCost_reverse] at this
    exact this

/-! ## The mismatch penalty -/

theorem SC.isVowel_eq_inVowels (c : Char) : SC.isVowel c = inVowels c := by
  have h : "aeiou".toList = ['a', 'e', 'i', 'o', 'u'] := rfl
  unfold SC.isVowel inVowels
  rw [h]
  simp only [List.contains_cons, List.contains_nil, Bool.or_false, beq_iff_eq, Bool.or_assoc]
  rfl

theorem SC.getMismatchPenalty_eq (x y : Char) :
    SC.getMismatchPenalty x y = if x = y then 0 else if inVowels x = inVowels y then 1 else 3 := by
  unfold SC.getMismatchPenalty
  simp only [SC.isVowel_eq_inVowels]
  by_cases h : x = y
  · simp [h]
  · simp only [h, if_false]
    cases inVowels x <;> cases inVowels y <;> simp

theorem SC.getMismatchPenalty_self (c : Char) : SC.getMismatchPenalty c c = 0 := by
  simp [SC.getMismatchPenalty_eq]

theorem SC.getMismatchPenalty_comm (x y : Char) :
    SC.getMismatchPenalty x y = SC.getMismatchPenalty y x := by
  rw [SC.getMismatchPenalty_eq, SC.getMismatchPenalty_eq]
  by_cases h : x = y
  · simp [h]
  · have h2 : ¬ y = x := fun e => h e.symm
    simp only [h, h2, if_false]
    cases inVowels x <;> cases inVowels y <;> simp

theorem mem_vowels_iff (c : Char) : c ∈ ['a', 'e', 'i', 'o', 'u'] ↔ inVowels c = true := by
  simp [inVowels, or_assoc]

theorem SC.getMismatchPenalty_of_ne {x y : Char} (h : x ≠ y) :
    SC.getMismatchPenalty x y =
      if (x ∈ ['a', 'e', 'i', 'o', 'u'] ↔ y ∈ ['a', 'e', 'i', 'o', 'u']) then 1 else 3 := by
  rw [SC.getMismatchPenalty_eq, if_neg h]
  have hx := mem_vowels_iff x
  have hy := mem_vowels_iff y
  by_cases hv : (x ∈ ['a', 'e', 'i', 'o', 'u'] ↔ y ∈ ['a', 'e', 'i', 'o', 'u'])
  · rw [if_pos hv, if_pos]
    rw [hx, hy] at hv
    cases hvx : inVowels x <;> cases hvy : inVowels y <;> simp [hvx, hvy] at hv ⊢
  · rw [if_neg hv, if_neg]
    intro e
    apply hv
    rw [hx, hy, e]

theorem weightedCell_eq : weightedCell = minCell SC.getMismatchPenalty 2 := rfl

theorem weightedOpCost_of_valid {op : EditOp} (h : op.valid = true) :
    weightedOpCost op = opCost SC.getMismatchPenalty 2 op := by
  cases op with
  | subst x y =>
    have hxy : ¬ x = y := by simpa [EditOp.valid] using h
    simp [weightedOpCost, opCost, SC.getMismatchPenalty_eq, hxy]
  | _ => rfl

theorem opCost_le_weightedOpCost (op : EditOp) :
    opCost SC.getMismatchPenalty 2 op ≤ weightedOpCost op := by
  cases op with
  | subst x y =>
    simp only [weightedOpCost, opCost, SC.getMismatchPenalty_eq]
    split_ifs <;> omega
  | _ => exact Nat.le_refl _

theorem scriptCost_le_weightedCost (ops : List EditOp) :
    scriptCost SC.getMismatchPenalty 2 ops ≤ weightedCost ops := by
  induction ops with
  | nil => simp [scriptCost, weightedCost]
  | cons op r ih =>
    have := opCost_le_weightedOpCost op
    simp only [scriptCost, weightedCost, List.map_cons, List.sum_cons] at ih ⊢
    omega

theorem weightedCost_of_valid {ops : List EditOp} (h : ops.all EditOp.valid = true) :
    weightedCost ops = scriptCost SC.getMismatchPenalty 2 ops := by
  induction ops with
  | nil => rfl
  | cons op r ih =>
    simp only [List.all_cons, Bool.and_eq_true] at h
    simp only [scriptCost, weightedCost, List.map_cons, List.sum_cons] at ih ⊢
    rw [weightedOpCost_of_valid h.1, ih h.2]

/-! ## Algebraic facts about the recurrence -/

theorem min3_swap (a b c : Nat) : min3 a b c = min3 a c b := by
  unfold min3; omega

theorem minRec_comm (pen : Char → Char → Nat) (g : Nat) (hpen : ∀ c d, pen c d = pen d c) :
    ∀ x y : List Char, dpRec g (minCell pen g) x y = dpRec g (minCell pen g) y x := by
  intro x
  induction x with
  | nil => intro y; rw [dpRec_nil_left, dpRec_nil_right]
  | cons c x ihx =>
    intro y
    induction y with
    | nil => rw [dpRec_nil_left, dpRec_nil_right]
    | cons d y ihy =>
      rw [dpRec_cons_cons, dpRec_cons_cons, minCell, minCell, ihx y, ihy, ihx (d :: y), hpen c d]
      exact min3_swap _ _ _

theorem minRec_self (pen : Char → Char → Nat) (g : Nat) (hpen : ∀ c, pen c c = 0) :
    ∀ w : List Char, dpRec g (minCell pen g) w w = 0 := by
  intro w
  induction w with
  | nil => simp [dpRec]
  | cons c w ih =>
    have := minRec_subst_le pen g c c w w
    rw [ih, hpen c] at this
    omega

theorem SC.weightedDistance_eq_minRec (a b : List Char) :
    SC.editDistance a b = dpRec 2 (minCell SC.getMismatchPenalty 2) a.reverse b.reverse := by
  rw [SC.weightedDistance_eq_rec, weightedCell_eq]

/-! ## Claims on the weighted distance of SC.js -/

/-- C1: the weighted `editDistance(a, b)` of SC.js is the minimum total cost over all alignments
of `a` with `b` (match 0, substitution inside one class 1, across the classes 3, insertion or
deletion 2): some alignment has exactly that cost and no alignment has a smaller one. -/
theorem SC.editDistance_is_min_alignment_cost (a b : List Char) :
    (∃ ops, Aligns ops a b ∧ weightedCost ops = SC.editDistance a b) ∧
    ∀ ops, Aligns ops a b → SC.editDistance a b ≤ weightedCost ops := by
  have key := minRec_reverse_is_min SC.getMismatchPenalty 2 SC.getMismatchPenalty_self a b
  rw [← SC.weightedDistance_eq_minRec] at key
  constructor
  · obtain ⟨ops, hal, hc⟩ := key.1
    exact ⟨ops, hal, by rw [weightedCost_of_valid hal.1, hc]⟩
  · intro ops hal
    exact Nat.le_trans (key.2 ops hal.2.1 hal.2.2) (scriptCost_le_weightedCost ops)

/-- Witness for C1 on the words "cat" and "cats": keeping the three letters and inserting the
last one is an alignment, and the distance is at most its cost. -/
theorem SC.editDistance_is_min_alignment_cost_witness :
    Aligns [EditOp.keep 'c', EditOp.keep 'a', EditOp.keep 't', EditOp.insert 's']
      "cat".toList "cats".toList ∧
    SC.editDistance "cat".toList "cats".toList ≤
      weightedCost [EditOp.keep 'c', EditOp.keep 'a', EditOp.keep 't', EditOp.insert 's'] :=
  ⟨by decide,
    (SC.editDistance_is_min_alignment_cost "cat".toList "cats".toList).2 _ (by decide)⟩

/-- C2: the weighted `editDistance` of SC.js is symmetric. -/
theorem SC.editDistance_symm (a b : List Char) :
    SC.editDistance a b = SC.editDistance b a := by
  rw [SC.weightedDistance_eq_minRec, SC.weightedDistance_eq_minRec]
  exact minRec_comm SC.getMismatchPenalty 2 SC.getMismatchPenalty_comm _ _

/-- C3: for every word `w`, the empty word included, the weighted `editDistance(w, w)` of SC.js
is 0. -/
theorem SC.editDistance_self (w : List Char) : SC.editDistance w w = 0 := by
  rw [SC.weightedDistance_eq_minRec]
  exact minRec_self SC.getMismatchPenalty 2 SC.getMismatchPenalty_self _

/-- C4: `getMismatchPenalty(x, y)` is 0 when `x = y`, 1 when `x ≠ y` and both or neither are in
a, e, i, o, u, and 3 when exactly one is; the vowel test of the code holds for a, e, i, o, u
only, so the apostrophe, the hyphen, digits and uppercase letters count as consonants; the
result is always one of 0, 1, 3. -/
theorem SC.getMismatchPenalty_spec (x y : Char) :
    (x = y → SC.getMismatchPenalty x y = 0) ∧
    (x ≠ y → (x ∈ ['a', 'e', 'i', 'o', 'u'] ↔ y ∈ ['a', 'e', 'i', 'o', 'u']) →
      SC.getMismatchPenalty x y = 1) ∧
    (x ≠ y → ¬ (x ∈ ['a', 'e', 'i', 'o', 'u'] ↔ y ∈ ['a', 'e', 'i', 'o', 'u']) →
      SC.getMismatchPenalty x y = 3) ∧
    (SC.isVowel x = true ↔ x ∈ ['a', 'e', 'i', 'o', 'u']) ∧
    ((x = Char.ofNat 39 ∨ x = '-' ∨ x.isDigit = true ∨ x.isUpper = true) →
      SC.isVowel x = false) ∧
    (SC.getMismatchPenalty x y = 0 ∨ SC.getMismatchPenalty x y = 1 ∨
      SC.getMismatchPenalty x y = 3) := by
  refine ⟨?_, ?_, ?_, ?_, ?_, ?_⟩
  · intro h
    simp [SC.getMismatchPenalty_eq, h]
  · intro h hv
    rw [SC.getMismatchPenalty_of_ne h, if_pos hv]
  · intro h hv
    rw [SC.getMismatchPenalty_of_ne h, if_neg hv]
  · rw [SC.isVowel_eq_inVowels, mem_vowels_iff x]
  · intro h
    rw [SC.isVowel_eq_inVowels]
    cases hv : inVowels x
    · rfl
    · exfalso
      have hx : x ∈ ['a', 'e', 'i', 'o', 'u'] := (mem_vowels_iff x).2 hv
      simp only [List.mem_cons, List.mem_singleton, List.not_mem_nil, or_false] at hx
      rcases hx with hx | hx | hx | hx | hx <;> subst hx <;> revert h <;> decide
  · rw [SC.getMismatchPenalty_eq]
    split_ifs <;> simp

/-- Witness for C4 on the characters `a` and `e`, two distinct vowels. -/
theorem SC.getMismatchPenalty_spec_witness : SC.getMismatchPenalty 'a' 'e' = 1 :=
  (SC.getMismatchPenalty_spec 'a' 'e').2.1 (by decide) (by decide)

/-! ## Bounds on the recurrence with gap cost 2 -/

theorem minRec_length_bounds (pen : Char → Char → Nat) :
    ∀ x y : List Char,
      2 * (y.length - x.length) ≤ dpRec 2 (minCell pen 2) x y ∧
      2 * (x.length - y.length) ≤ dpRec 2 (minCell pen 2) x y := by
  intro x
  induction x with
  | nil => intro y; rw [dpRec_nil_left]; simp; omega
  | cons c x ihx =>
    intro y
    induction y with
    | nil => rw [dpRec_nil_right]; simp; omega
    | cons d y ihy =>
      rw [dpRec_cons_cons, minCell]
      have h1 := ihx y
      have h2 := ihx (d :: y)
      simp only [List.length_cons] at h1 h2 ihy ⊢
      constructor
      · exact le_min3 (by omega) (by omega) (by omega)
      · exact le_min3 (by omega) (by omega) (by omega)

theorem minRec_le_lengths (pen : Char → Char → Nat) :
    ∀ x y : List Char, dpRec 2 (minCell pen 2) x y ≤ 2 * x.length + 2 * y.length := by
  intro x
  induction x with
  | nil => intro y; rw [dpRec_nil_left]; simp; omega
  | cons c x ih =>
    intro y
    have := minRec_delete_le pen 2 c x y
    have := ih y
    simp only [List.length_cons]
    omega

theorem minRec_append_left_le (pen : Char → Char → Nat) (hpen : ∀ c, pen c c = 0)
    (x : List Char) : ∀ t : List Char, dpRec 2 (minCell pen 2) x (t ++ x) ≤ 2 * t.length := by
  intro t
  induction t with
  | nil => simp [minRec_self pen 2 hpen x]
  | cons d t ih =>
    have := minRec_insert_le pen 2 x d (t ++ x)
    simp only [List.cons_append, List.length_cons]
    omega

theorem minRec_append_left (pen : Char → Char → Nat) (hpen : ∀ c, pen c c = 0)
    (x t : List Char) : dpRec 2 (minCell pen 2) x (t ++ x) = 2 * t.length := by
  have h1 := minRec_append_left_le pen hpen x t
  have h2 := (minRec_length_bounds pen x (t ++ x)).1
  simp only [List.length_append] at h2
  omega

theorem diagCost_self (pen : Char → Char → Nat) (hpen : ∀ c, pen c c = 0) :
    ∀ u : List Char, diagCost pen u u = 0 := by
  intro u
  induction u with
  | nil => rfl
  | cons c u ih => simp [diagCost, hpen c, ih]

theorem diagCost_append_same (pen : Char → Char → Nat) (hpen : ∀ c, pen c c = 0)
    (x y : List Char) : ∀ p : List Char, diagCost pen (p ++ x) (p ++ y) = diagCost pen x y := by
  intro p
  induction p with
  | nil => rfl
  | cons c p ih => simp [diagCost, hpen c, ih]

theorem minRec_le_diagCost (pen : Char → Char → Nat) :
    ∀ x y : List Char, x.length = y.length →
      dpRec 2 (minCell pen 2) x y ≤ diagCost pen x y := by
  intro x
  induction x with
  | nil =>
    intro y hy
    cases y with
    | nil => simp [dpRec, diagCost]
    | cons d y => simp at hy
  | cons c x ih =>
    intro y hy
    cases y with
    | nil => simp at hy
    | cons d y =>
      have h1 := ih y (by simpa using hy)
      have h2 := minRec_subst_le pen 2 c d x y
      simp only [diagCost]
      omega

theorem min_diagCost_le_minRec (pen : Char → Char → Nat) :
    ∀ x y : List Char, x.length = y.length →
      min (diagCost pen x y) 4 ≤ dpRec 2 (minCell pen 2) x y := by
  intro x
  induction x with
  | nil =>
    intro y hy
    cases y with
    | nil => simp [dpRec, diagCost]
    | cons d y => simp at hy
  | cons c x ih =>
    intro y hy
    cases y with
    | nil => simp at hy
    | cons d y =>
      have hlen : x.length = y.length := by simpa using hy
      have h1 := ih y hlen
      have h2 := (minRec_length_bounds pen (c :: x) y).2
      have h3 := (minRec_length_bounds pen x (d :: y)).1
      simp only [List.length_cons] at h2 h3
      rw [dpRec_cons_cons, minCell]
      simp only [diagCost]
      exact le_min3 (by omega) (by omega) (by omega)

/-- Two words that differ by one substitution `x` to `y` are at distance `pen x y`, when that
penalty is at most 3. -/
theorem minRec_single_subst (pen : Char → Char → Nat) (hpen : ∀ c, pen c c = 0)
    (p q : List Char) (x y : Char) (h3 : pen x y ≤ 3) :
    dpRec 2 (minCell pen 2) (p ++ x :: q) (p ++ y :: q) = pen x y := by
  have hd : diagCost pen (p ++ x :: q) (p ++ y :: q) = pen x y := by
    rw [diagCost_append_same pen hpen]
    simp [diagCost, diagCost_self pen hpen]
  have hlen : (p ++ x :: q).length = (p ++ y :: q).length := by simp
  have h1 := minRec_le_diagCost pen _ _ hlen
  have h2 := min_diagCost_le_minRec pen _ _ hlen
  rw [hd] at h1 h2
  omega

theorem SC.getMismatchPenalty_le_three (x y : Char) : SC.getMismatchPenalty x y ≤ 3 := by
  rw [SC.getMismatchPenalty_eq]
  split_ifs <;> omega

theorem split_at_single_difference {a b : List Char} {i : Nat} {x y : Char}
    (hlen : a.length = b.length) (hx : a[i]? = some x) (hy : b[i]? = some y)
    (hrest : ∀ j, j < a.length → j ≠ i → a[j]? = b[j]?) :
    a = a.take i ++ x :: a.drop (i + 1) ∧ b = a.take i ++ y :: a.drop (i + 1) := by
  have hia : i < a.length := by
    by_contra h
    rw [List.getElem?_eq_none (Nat.le_of_not_lt h)] at hx
    exact Option.noConfusion hx
  have hib : i < b.length := by
    by_contra h
    rw [List.getElem?_eq_none (Nat.le_of_not_lt h)] at hy
    exact Option.noConfusion hy
  have hxa : a[i] = x := by
    rw [List.getElem?_eq_getElem hia] at hx
    exact Option.some.inj hx
  have hyb : b[i] = y := by
    rw [List.getElem?_eq_getElem hib] at hy
    exact Option.some.inj hy
  have htake : b.take i = a.take i := by
    apply List.ext_getElem?
    intro j
    rw [List.getElem?_take, List.getElem?_take]
    split
    · exact (hrest j (by omega) (by omega)).symm
    · rfl
  have hdrop : b.drop (i + 1) = a.drop (i + 1) := by
    apply List.ext_getElem?
    intro j
    rw [List.getElem?_drop, List.getElem?_drop]
    by_cases hj : i + 1 + j < a.length
    · exact (hrest (i + 1 + j) hj (by omega)).symm
    · rw [List.getElem?_eq_none (by omega), List.getElem?_eq_none (by omega)]
  constructor
  · conv_lhs => rw [← List.take_append_drop i a, List.drop_eq_getElem_cons hia, hxa]
  · conv_lhs => rw [← List.take_append_drop i b, List.drop_eq_getElem_cons hib, hyb, htake, hdrop]

/-- C5: the weighted `editDistance(a, a ++ s)` of SC.js is `2 * |s|`; in particular
`editDistance("", b) = 2 * |b|`, the words "" and "abc" give 6, and "cat" and "cats" give 2. -/
theorem SC.editDistance_append (a s : List Char) :
    SC.editDistance a (a ++ s) = 2 * s.length ∧
    SC.editDistance [] s = 2 * s.length ∧
    SC.editDistance "".toList "abc".toList = 6 ∧
    SC.editDistance "cat".toList "cats".toList = 2 := by
  have key : ∀ u v : List Char, SC.editDistance u (u ++ v) = 2 * v.length := by
    intro u v
    rw [SC.weightedDistance_eq_minRec, List.reverse_append,
      minRec_append_left SC.getMismatchPenalty SC.getMismatchPenalty_self, List.length_reverse]
  refine ⟨key a s, ?_, by decide, by decide⟩
  have := key [] s
  simpa using this

/-- C6: two words of equal length that differ in exactly one position, holding `x` and `y`
there, are at weighted distance `getMismatchPenalty(x, y)`: 1 when `x` and `y` are both vowels
or both consonants, 3 when one is a vowel and the other a consonant. -/
theorem SC.editDistance_single_substitution (a b : List Char) (i : Nat) (x y : Char)
    (hlen : a.length = b.length) (hx : a[i]? = some x) (hy : b[i]? = some y) (hxy : x ≠ y)
    (hrest : ∀ j, j < a.length → j ≠ i → a[j]? = b[j]?) :
    SC.editDistance a b = SC.getMismatchPenalty x y ∧
    SC.editDistance a b =
      if (x ∈ ['a', 'e', 'i', 'o', 'u'] ↔ y ∈ ['a', 'e', 'i', 'o', 'u']) then 1 else 3 := by
  have hsplit := split_at_single_difference hlen hx hy hrest
  have hdist : SC.editDistance a b = SC.getMismatchPenalty x y := by
    rw [SC.weightedDistance_eq_minRec]
    conv_lhs => rw [hsplit.1, hsplit.2]
    simp only [List.reverse_append, List.reverse_cons, List.append_assoc, List.singleton_append]
    exact minRec_single_subst SC.getMismatchPenalty SC.getMismatchPenalty_self _ _ x y
      (SC.getMismatchPenalty_le_three x y)
  exact ⟨hdist, by rw [hdist, SC.getMismatchPenalty_of_ne hxy]⟩

/-- Witness for C6 on "cat" and "cot", which differ at position 1. -/
theorem SC.editDistance_single_substitution_witness :
    SC.editDistance "cat".toList "cot".toList = SC.getMismatchPenalty 'a' 'o' ∧
    SC.editDistance "cat".toList "cot".toList =
      if ('a' ∈ ['a', 'e', 'i', 'o', 'u'] ↔ 'o' ∈ ['a', 'e', 'i', 'o', 'u']) then 1 else 3 :=
  SC.editDistance_single_substitution "cat".toList "cot".toList 1 'a' 'o'
    (by decide) (by decide) (by decide) (by decide)
    (by
      intro j _ hj
      match j with
      | 0 => rfl
      | 1 => exact absurd rfl hj
      | 2 => rfl
      | (k + 3) => rfl)

/-! ## The weighted distance is a metric -/

theorem SC.getMismatchPenalty_triangle (x y z : Char) :
    SC.getMismatchPenalty x z ≤ SC.getMismatchPenalty x y + SC.getMismatchPenalty y z := by
  simp only [SC.getMismatchPenalty_eq]
  by_cases hxy : x = y
  · subst hxy; simp
  · by_cases hyz : y = z
    · subst hyz; simp
    · simp only [hxy, hyz, if_false]
      cases inVowels x <;> cases inVowels y <;> cases inVowels z <;> split_ifs <;> simp_all

theorem SC.getMismatchPenalty_eq_zero {x y : Char} (h : SC.getMismatchPenalty x y = 0) :
    x = y := by
  rw [SC.getMismatchPenalty_eq] at h
  by_contra hxy
  rw [if_neg hxy] at h
  split_ifs at h

/-- The recurrence with gap cost 2 satisfies the triangle inequality when the substitution
table does. -/
theorem minRec_triangle (pen : Char → Char → Nat)
    (htri : ∀ x y z, pen x z ≤ pen x y + pen y z) :
    ∀ (n : Nat) (x y z : List Char), x.length + y.length + z.length ≤ n →
      dpRec 2 (minCell pen 2) x z ≤ dpRec 2 (minCell pen 2) x y + dpRec 2 (minCell pen 2) y z := by
  intro n
  induction n with
  | zero =>
    intro x y z h
    have hx : x = [] := List.length_eq_zero.mp (by omega)
    have hy : y = [] := List.length_eq_zero.mp (by omega)
    have hz : z = [] := List.length_eq_zero.mp (by omega)
    subst hx; subst hy; subst hz
    simp [dpRec]
  | succ n ih =>
    intro x y z h
    cases x with
    | nil =>
      have h1 := (minRec_length_bounds pen y z).1
      rw [dpRec_nil_left, dpRec_nil_left]
      omega
    | cons a x =>
      cases z with
      | nil =>
        have h1 := (minRec_length_bounds pen (a :: x) y).2
        rw [dpRec_nil_right, dpRec_nil_right]
        omega
      | cons c z =>
        cases y with
        | nil =>
          have h1 := minRec_le_lengths pen (a :: x) (c :: z)
          rw [dpRec_nil_left, dpRec_nil_right]
          omega
        | cons b y =>
          simp only [List.length_cons] at h
          have hdel := minRec_delete_le pen 2 a x (c :: z)
          have hins := minRec_insert_le pen 2 (a :: x) c z
          have hsub := minRec_subst_le pen 2 a c x z
          have t1 := ih x (b :: y) (c :: z) (by simp only [List.length_cons]; omega)
          have t2 := ih (a :: x) (b :: y) z (by simp only [List.length_cons]; omega)
          have t3 := ih x y z (by omega)
          have t4 := ih x y (c :: z) (by simp only [List.length_cons]; omega)
          have t5 := ih (a :: x) y z (by simp only [List.length_cons]; omega)
          have t6 := ih (a :: x) y (c :: z) (by simp only [List.length_cons]; omega)
          have hp := htri a b c
          have hxy := dpRec_cons_cons 2 (minCell pen 2) a b x y
          have hyz := dpRec_cons_cons 2 (minCell pen 2) b c y z
          rcases min3_cases (dpRec 2 (minCell pen 2) x y + pen a b)
            (dpRec 2 (minCell pen 2) (a :: x) y + 2)
            (dpRec 2 (minCell pen 2) x (b :: y) + 2) with e1 | e1 | e1 <;>
          rcases min3_cases (dpRec 2 (minCell pen 2) y z + pen b c)
            (dpRec 2 (minCell pen 2) (b :: y) z + 2)
            (dpRec 2 (minCell pen 2) y (c :: z) + 2) with e2 | e2 | e2 <;>
          · rw [minCell, e1] at hxy
            rw [minCell, e2] at hyz
            omega

theorem minRec_eq_zero (pen : Char → Char → Nat) (hpen : ∀ c d, pen c d = 0 → c = d) :
    ∀ x y : List Char, dpRec 2 (minCell pen 2) x y = 0 → x = y := by
  intro x
  induction x with
  | nil =>
    intro y h
    rw [dpRec_nil_left] at h
    have : y.length = 0 := by omega
    exact (List.length_eq_zero.mp this).symm
  | cons c x ih =>
    intro y h
    cases y with
    | nil =>
      rw [dpRec_nil_right] at h
      simp only [List.length_cons] at h
      omega
    | cons d y =>
      rw [dpRec_cons_cons, minCell] at h
      rcases min3_cases (dpRec 2 (minCell pen 2) x y + pen c d)
        (dpRec 2 (minCell pen 2) (c :: x) y + 2)
        (dpRec 2 (minCell pen 2) x (d :: y) + 2) with e | e | e
      · rw [e] at h
        have h1 : dpRec 2 (minCell pen 2) x y = 0 := by omega
        have h2 : pen c d = 0 := by omega
        rw [ih y h1, hpen c d h2]
      · rw [e] at h; omega
      · rw [e] at h; omega

theorem SC.weightedDistance_triangle (a b c : List Char) :
    SC.editDistance a c ≤ SC.editDistance a b + SC.editDistance b c := by
  rw [SC.weightedDistance_eq_minRec, SC.weightedDistance_eq_minRec, SC.weightedDistance_eq_minRec]
  exact minRec_triangle SC.getMismatchPenalty SC.getMismatchPenalty_triangle _ _ _ _
    (Nat.le_refl _)

theorem SC.weightedDistance_eq_zero_iff (a b : List Char) :
    SC.editDistance a b = 0 ↔ a = b := by
  constructor
  · intro h
    rw [SC.weightedDistance_eq_minRec] at h
    have := minRec_eq_zero SC.getMismatchPenalty
      (fun c d hcd => SC.getMismatchPenalty_eq_zero hcd) _ _ h
    exact List.reverse_injective this
  · intro h
    subst h
    rw [SC.weightedDistance_eq_minRec]
    exact minRec_self SC.getMismatchPenalty 2 SC.getMismatchPenalty_self _

theorem SC.weightedDistance_comm (a b : List Char) :
    SC.editDistance a b = SC.editDistance b a := by
  rw [SC.weightedDistance_eq_minRec, SC.weightedDistance_eq_minRec]
  exact minRec_comm SC.getMismatchPenalty 2 SC.getMismatchPenalty_comm _ _

/-- C7, refuted as stated: no words violate a metric axiom, neither distance 0 between distinct
words, nor asymmetry, nor a failure of the triangle inequality. -/
theorem SC.editDistance_no_metric_axiom_fails :
    ¬ ∃ a b c : List Char,
      (SC.editDistance a b = 0 ∧ a ≠ b) ∨
      SC.editDistance a b ≠ SC.editDistance b a ∨
      SC.editDistance a b + SC.editDistance b c < SC.editDistance a c := by
  rintro ⟨a, b, c, h | h | h⟩
  · exact h.2 ((SC.weightedDistance_eq_zero_iff a b).1 h.1)
  · exact h (SC.weightedDistance_comm a b)
  · exact absurd (SC.weightedDistance_triangle a b c) (Nat.not_le_of_lt h)

/-- C7, amended: the weighted `editDistance` of SC.js is a metric on words: it is 0 exactly
between equal words, it is symmetric, and it satisfies the triangle inequality. -/
theorem SC.editDistance_is_metric (a b c : List Char) :
    (SC.editDistance a b = 0 ↔ a = b) ∧
    SC.editDistance a b = SC.editDistance b a ∧
    SC.editDistance a c ≤ SC.editDistance a b + SC.editDistance b c :=
  ⟨SC.weightedDistance_eq_zero_iff a b, SC.weightedDistance_comm a b,
    SC.weightedDistance_triangle a b c⟩

/-! ## The unit-cost distance of spell_checker.js -/

theorem fullMinCell_eq : fullMinCell = minCell unitPen 1 := rfl

theorem minCell_apply (pen : Char → Char → Nat) (g : Nat) (c d : Char) (diag left up : Nat) :
    minCell pen g c d diag left up = min3 (diag + pen c d) (left + g) (up + g) := rfl

theorem minRec_le_cons_left (pen : Char → Char → Nat) (g : Nat) (c : Char) (x : List Char) :
    ∀ y : List Char, dpRec g (minCell pen g) x y ≤ dpRec g (minCell pen g) (c :: x) y + g := by
  intro y
  induction y with
  | nil =>
    rw [dpRec_nil_right, dpRec_nil_right]
    simp only [List.length_cons, Nat.add_mul, Nat.one_mul]
    omega
  | cons d y ih =>
    have hins := minRec_insert_le pen g x d y
    rw [dpRec_cons_cons, minCell]
    have h := le_min3
      (x := dpRec g (minCell pen g) x (d :: y))
      (a := dpRec g (minCell pen g) x y + pen c d + g)
      (b := dpRec g (minCell pen g) (c :: x) y + g + g)
      (c := dpRec g (minCell pen g) x (d :: y) + g + g)
      (by omega) (by omega) (by omega)
    unfold min3 at h ⊢
    omega

theorem minRec_le_cons_right (pen : Char → Char → Nat) (g : Nat)
    (hpen : ∀ c d, pen c d = pen d c) (d : Char) (x y : List Char) :
    dpRec g (minCell pen g) x y ≤ dpRec g (minCell pen g) x (d :: y) + g := by
  rw [minRec_comm pen g hpen x y, minRec_comm pen g hpen x (d :: y)]
  exact minRec_le_cons_left pen g d y x

theorem unitPen_comm (c d : Char) : unitPen c d = unitPen d c := by
  unfold unitPen
  by_cases h : c = d
  · subst h; rfl
  · rw [if_neg h, if_neg (fun e => h e.symm)]

theorem unitPen_self (c : Char) : unitPen c c = 0 := by simp [unitPen]

/-- Taking the diagonal entry directly on a match gives the same values as the full three-way
minimum. -/
theorem unitRec_eq_minRec :
    ∀ x y : List Char, dpRec 1 unitCell x y = dpRec 1 (minCell unitPen 1) x y := by
  intro x
  induction x with
  | nil => intro y; rfl
  | cons c x ihx =>
    intro y
    induction y with
    | nil => rfl
    | cons d y ihy =>
      rw [dpRec_cons_cons, dpRec_cons_cons, ihx y, ihy, ihx (d :: y), minCell_apply]
      unfold unitCell
      by_cases hcd : c = d
      · subst hcd
        have h1 := minRec_le_cons_left unitPen 1 c x y
        have h2 := minRec_le_cons_right unitPen 1 unitPen_comm c x y
        rw [if_pos rfl, unitPen_self]
        unfold min3
        omega
      · rw [if_neg hcd]
        simp [unitPen, hcd]

theorem table_ext {t u : List (List Nat)} {m n : Nat} (ht : TableDim t m n)
    (hu : TableDim u m n) (h : ∀ i j, i ≤ m → j ≤ n → get2 t i j = get2 u i j) : t = u := by
  apply List.ext_getElem (by rw [ht.1, hu.1])
  intro i hi1 hi2
  have him : i ≤ m := by rw [ht.1] at hi1; omega
  have hrt := tableDim_row ht him
  have hru := tableDim_row hu him
  rw [List.getD_eq_getElem _ _ hi1] at hrt
  rw [List.getD_eq_getElem _ _ hi2] at hru
  apply List.ext_getElem (by rw [hrt, hru])
  intro j hj1 hj2
  have hjn : j ≤ n := by rw [hrt] at hj1; omega
  have := h i j him hjn
  unfold get2 at this
  rw [List.getD_eq_getElem _ _ hi1, List.getD_eq_getElem _ _ hi2,
    List.getD_eq_getElem _ _ hj1, List.getD_eq_getElem _ _ hj2] at this
  exact this

theorem spell_checker.unitTable_eq_fullMinTable (a b : List Char) :
    spell_checker.editDistanceTable a b = fullMinTable a b := by
  rw [spell_checker.unitTable_eq_fillTable, fullMinTable_eq]
  apply table_ext (tableDim_fillTable 1 unitCell a b) (tableDim_fillTable 1 fullMinCell a b)
  intro i j hi hj
  rw [get2_fillTable 1 unitCell a b hi hj, get2_fillTable 1 fullMinCell a b hi hj,
    fullMinCell_eq, unitRec_eq_minRec]

theorem unitOpCost_of_valid {op : EditOp} (h : op.valid = true) :
    unitOpCost op = opCost unitPen 1 op := by
  cases op with
  | subst x y =>
    have hxy : ¬ x = y := by simpa [EditOp.valid] using h
    simp [unitOpCost, opCost, unitPen, hxy]
  | _ => rfl

theorem opCost_le_unitOpCost (op : EditOp) : opCost unitPen 1 op ≤ unitOpCost op := by
  cases op with
  | subst x y =>
    simp only [unitOpCost, opCost, unitPen]
    split_ifs <;> omega
  | _ => exact Nat.le_refl _

theorem scriptCost_le_unitCost (ops : List EditOp) :
    scriptCost unitPen 1 ops ≤ unitCost ops := by
  induction ops with
  | nil => simp [scriptCost, unitCost]
  | cons op r ih =>
    have := opCost_le_unitOpCost op
    simp only [scriptCost, unitCost, List.map_cons, List.sum_cons] at ih ⊢
    omega

theorem unitCost_of_valid {ops : List EditOp} (h : ops.all EditOp.valid = true) :
    unitCost ops = scriptCost unitPen 1 ops := by
  induction ops with
  | nil => rfl
  | cons op r ih =>
    simp only [List.all_cons, Bool.and_eq_true] at h
    simp only [scriptCost, unitCost, List.map_cons, List.sum_cons] at ih ⊢
    rw [unitOpCost_of_valid h.1, ih h.2]

theorem spell_checker.unitDistance_eq_minRec (a b : List Char) :
    spell_checker.editDistance a b = dpRec 1 (minCell unitPen 1) a.reverse b.reverse := by
  rw [spell_checker.unitDistance_eq_rec, unitRec_eq_minRec]

/-- C8: `editDistance(a, b)` of spell_checker.js is the Levenshtein distance, the minimum number
of single-character insertions, deletions and substitutions that turn `a` into `b`; and taking
`dp[i-1][j-1]` directly on a match gives the same table as the full three-way minimum with
substitution cost 0 on a match. -/
theorem spell_checker.editDistance_is_levenshtein (a b : List Char) :
    ((∃ ops, Aligns ops a b ∧ unitCost ops = spell_checker.editDistance a b) ∧
      ∀ ops, Aligns ops a b → spell_checker.editDistance a b ≤ unitCost ops) ∧
    spell_checker.editDistanceTable a b = fullMinTable a b := by
  have key := minRec_reverse_is_min unitPen 1 unitPen_self a b
  rw [← spell_checker.unitDistance_eq_minRec] at key
  refine ⟨⟨?_, ?_⟩, spell_checker.unitTable_eq_fullMinTable a b⟩
  · obtain ⟨ops, hal, hc⟩ := key.1
    exact ⟨ops, hal, by rw [unitCost_of_valid hal.1, hc]⟩
  · intro ops hal
    exact Nat.le_trans (key.2 ops hal.2.1 hal.2.2) (scriptCost_le_unitCost ops)

/-- Witness for C8 on "cat" and "cut": one substitution is an alignment, so the distance is at
most 1. -/
theorem spell_checker.editDistance_is_levenshtein_witness :
    Aligns [EditOp.keep 'c', EditOp.subst 'a' 'u', EditOp.keep 't'] "cat".toList "cut".toList ∧
    spell_checker.editDistance "cat".toList "cut".toList ≤
      unitCost [EditOp.keep 'c', EditOp.subst 'a' 'u', EditOp.keep 't'] :=
  ⟨by decide,
    (spell_checker.editDistance_is_levenshtein "cat".toList "cut".toList).1.2 _ (by decide)⟩

/-! ## Ranking: the suggestion lists -/

theorem push_loop_eq {α β : Type} (cond : α → Bool) (mk : α → β) :
    ∀ (dict : List α) (init : List β),
      dict.foldl (fun acc w => if cond w = true then acc ++ [mk w] else acc) init =
        init ++ (dict.filter cond).map mk := by
  intro dict
  induction dict with
  | nil => intro init; simp
  | cons w dict ih =>
    intro init
    rw [List.foldl_cons, ih]
    by_cases h : cond w = true
    · simp [h, List.filter_cons]
    · simp [h, List.filter_cons]

/-- The list `suggestions` of `findSuggestions` before sorting: the dictionary entries within
the threshold, in dictionary order, each with its distance. -/
theorem spell_checker.findSuggestions_eq (self : spell_checker.SpellChecker)
    (w : List Char) (hw : w ≠ []) :
    spell_checker.findSuggestions self w =
      (sortByDistance
        ((self.dictionary.filter (fun d =>
            decide ((spell_checker.editDistance w d : Int) ≤ self.distanceThreshold))).map
          (fun d => ({ word := d, distance := spell_checker.editDistance w d } : Suggestion)))).take
        self.maxSuggestions := by
  unfold spell_checker.findSuggestions
  have hlen : ¬ w.length = 0 := fun h => hw (List.length_eq_zero.mp h)
  rw [if_neg hlen]
  have := push_loop_eq
    (fun d => decide ((spell_checker.editDistance w d : Int) ≤ self.distanceThreshold))
    (fun d => ({ word := d, distance := spell_checker.editDistance w d } : Suggestion))
    self.dictionary []
  simp only [decide_eq_true_eq, List.nil_append] at this
  simp only [this]

theorem mem_sortByDistance {s : Suggestion} {l : List Suggestion} :
    s ∈ sortByDistance l ↔ s ∈ l :=
  (List.perm_insertionSort _ l).mem_iff

theorem sortByDistance_pairwise (l : List Suggestion) :
    List.Pairwise (fun s t => s.distance ≤ t.distance) (sortByDistance l) := by
  have htotal : IsTotal Suggestion (fun a b => a.distance ≤ b.distance) :=
    ⟨fun a b => Nat.le_total a.distance b.distance⟩
  have htrans : IsTrans Suggestion (fun a b => a.distance ≤ b.distance) :=
    ⟨fun _ _ _ h1 h2 => Nat.le_trans h1 h2⟩
  exact List.sorted_insertionSort (fun a b => a.distance ≤ b.distance) l

theorem take_sortByDistance_pairwise (k : Nat) (l : List Suggestion) :
    List.Pairwise (fun s t => s.distance ≤ t.distance) ((sortByDistance l).take k) :=
  (sortByDistance_pairwise l).sublist (List.take_sublist k _)

theorem adjacent_of_pairwise {l : List Suggestion}
    (h : List.Pairwise (fun s t => s.distance ≤ t.distance) l) (i : Nat)
    (hi : i + 1 < l.length) :
    (l.get ⟨i, Nat.lt_of_succ_lt hi⟩).distance ≤ (l.get ⟨i + 1, hi⟩).distance :=
  List.pairwise_iff_get.mp h ⟨i, Nat.lt_of_succ_lt hi⟩ ⟨i + 1, hi⟩ (Nat.lt_succ_self i)

theorem spell_checker.findSuggestions_pairwise (self : spell_checker.SpellChecker)
    (w : List Char) :
    List.Pairwise (fun s t => s.distance ≤ t.distance) (spell_checker.findSuggestions self w) := by
  by_cases hw : w = []
  · subst hw
    simp [spell_checker.findSuggestions]
  · rw [spell_checker.findSuggestions_eq self w hw]
    exact take_sortByDistance_pairwise _ _

theorem SC.getTopSuggestions_pairwise (self : SC.SpellChecker) (w : List Char) :
    List.Pairwise (fun s t => s.distance ≤ t.distance) (SC.getTopSuggestions self w) :=
  take_sortByDistance_pairwise _ _

/-- C9: every entry returned by `findSuggestions` has its word from the dictionary, its distance
equal to `editDistance(query, word)` and at most `distanceThreshold`; every entry returned by
`getTopSuggestions` has its word from the dictionary and its distance equal to the weighted
`editDistance(query, word)`. -/
theorem suggestions_sound (self : spell_checker.SpellChecker) (top : SC.SpellChecker)
    (query : List Char) :
    (∀ s ∈ spell_checker.findSuggestions self query,
      s.word ∈ self.dictionary ∧ s.distance = spell_checker.editDistance query s.word ∧
      (s.distance : Int) ≤ self.distanceThreshold) ∧
    (∀ s ∈ SC.getTopSuggestions top query,
      s.word ∈ top.dictionary ∧ s.distance = SC.editDistance query s.word) := by
  constructor
  · intro s hs
    by_cases hw : query = []
    · subst hw
      simp [spell_checker.findSuggestions] at hs
    · rw [spell_checker.findSuggestions_eq self query hw] at hs
      have h1 := mem_sortByDistance.mp (List.mem_of_mem_take hs)
      obtain ⟨d, hd, rfl⟩ := List.mem_map.mp h1
      obtain ⟨hmem, hthr⟩ := List.mem_filter.mp hd
      exact ⟨hmem, rfl, by simpa using hthr⟩
  · intro s hs
    unfold SC.getTopSuggestions at hs
    have h1 := mem_sortByDistance.mp (List.mem_of_mem_take hs)
    obtain ⟨d, hd, rfl⟩ := List.mem_map.mp h1
    exact ⟨hd, rfl⟩

/-- Witness for C9: the first entry returned for "speling" against a three-word dictionary
with threshold 2. -/
theorem suggestions_sound_witness :
    "spelling".toList ∈ ["spelling".toList, "spewing".toList, "sapling".toList] ∧
    1 = spell_checker.editDistance "speling".toList "spelling".toList ∧
    ((1 : Nat) : Int) ≤ 2 :=
  (suggestions_sound ⟨["spelling".toList, "spewing".toList, "sapling".toList], 2, 5⟩ ⟨[]⟩
    "speling".toList).1 ⟨"spelling".toList, 1⟩ (by decide)

/-- C10: the lists returned by `findSuggestions` and by `getTopSuggestions` are in ascending
order of distance: each entry's distance is at most the distance of the entry after it, and of
every later entry; for "speling" against "spelling", "spewing", "sapling" the distances come
out as 1, 1, 2 and as 1, 2, 4. -/
theorem suggestions_sorted (self : spell_checker.SpellChecker) (top : SC.SpellChecker)
    (query : List Char) :
    List.Pairwise (fun s t => s.distance ≤ t.distance)
      (spell_checker.findSuggestions self query) ∧
    (∀ i (hi : i + 1 < (spell_checker.findSuggestions self query).length),
      ((spell_checker.findSuggestions self query).get ⟨i, Nat.lt_of_succ_lt hi⟩).distance ≤
        ((spell_checker.findSuggestions self query).get ⟨i + 1, hi⟩).distance) ∧
    List.Pairwise (fun s t => s.distance ≤ t.distance) (SC.getTopSuggestions top query) ∧
    (∀ i (hi : i + 1 < (SC.getTopSuggestions top query).length),
      ((SC.getTopSuggestions top query).get ⟨i, Nat.lt_of_succ_lt hi⟩).distance ≤
        ((SC.getTopSuggestions top query).get ⟨i + 1, hi⟩).distance) ∧
    (spell_checker.findSuggestions
        ⟨["spelling".toList, "spewing".toList, "sapling".toList], 2, 5⟩
        "speling".toList).map (fun s => s.distance) = [1, 1, 2] ∧
    (SC.getTopSuggestions ⟨["spelling".toList, "spewing".toList, "sapling".toList]⟩
        "speling".toList).map (fun s => s.distance) = [1, 2, 4] :=
  ⟨spell_checker.findSuggestions_pairwise self query,
    adjacent_of_pairwise (spell_checker.findSuggestions_pairwise self query),
    SC.getTopSuggestions_pairwise top query,
    adjacent_of_pairwise (SC.getTopSuggestions_pairwise top query),
    by decide, by decide⟩

/-! ## Ranking: selection of the best entries, ties and bounds -/

theorem spell_checker.findSuggestions_eq_take (self : spell_checker.SpellChecker)
    (w : List Char) (hw : w ≠ []) :
    spell_checker.findSuggestions self w =
      (sortByDistance (spell_checker.candidates self w)).take self.maxSuggestions :=
  spell_checker.findSuggestions_eq self w hw

theorem spell_checker.findSuggestions_nil (self : spell_checker.SpellChecker) :
    spell_checker.findSuggestions self [] = [] := by
  simp [spell_checker.findSuggestions]

theorem SC.getTopSuggestions_eq_take (self : SC.SpellChecker) (w : List Char) :
    SC.getTopSuggestions self w = (sortByDistance (SC.candidates self w)).take 10 := rfl

theorem length_sortByDistance (l : List Suggestion) : (sortByDistance l).length = l.length :=
  List.length_insertionSort _ l

theorem length_take_sortByDistance (k : Nat) (l : List Suggestion) :
    ((sortByDistance l).take k).length = min k l.length := by
  rw [List.length_take, length_sortByDistance]

/-- The entries cut off by `slice` are at least as far as every entry kept. -/
theorem take_sortByDistance_split (k : Nat) (l : List Suggestion) :
    ∃ rest : List Suggestion, ((sortByDistance l).take k ++ rest).Perm l ∧
      ∀ r ∈ (sortByDistance l).take k, ∀ c ∈ rest, r.distance ≤ c.distance := by
  refine ⟨(sortByDistance l).drop k, ?_, ?_⟩
  · rw [List.take_append_drop]
    exact List.perm_insertionSort _ l
  · have h := sortByDistance_pairwise l
    rw [← List.take_append_drop k (sortByDistance l), List.pairwise_append] at h
    exact h.2.2

theorem take_sortByDistance_omitted (k : Nat) (l : List Suggestion) (c : Suggestion)
    (hc : c ∈ l) (hout : c ∉ (sortByDistance l).take k) :
    ∀ r ∈ (sortByDistance l).take k, r.distance ≤ c.distance := by
  have h := sortByDistance_pairwise l
  rw [← List.take_append_drop k (sortByDistance l), List.pairwise_append] at h
  have hmem : c ∈ (sortByDistance l).take k ++ (sortByDistance l).drop k := by
    rw [List.take_append_drop]
    exact mem_sortByDistance.mpr hc
  rcases List.mem_append.mp hmem with h1 | h1
  · exact absurd h1 hout
  · intro r hr
    exact h.2.2 r hr c h1

/-- C11, refuted as stated: for the empty query and the dictionary with the single word "a",
which is within the threshold 2, `findSuggestions` returns no entry, not min(5, 1) = 1. -/
theorem spell_checker.findSuggestions_empty_query_not_top_k :
    ¬ ((spell_checker.findSuggestions ⟨["a".toList], 2, 5⟩ []).length =
        min 5 (spell_checker.candidates ⟨["a".toList], 2, 5⟩ []).length) := by
  decide

/-- C11, amended: for every non-empty query the result of `findSuggestions`, and for every
query the result of `getTopSuggestions`, has min(K, number of candidates) entries, with
K = `maxSuggestions` and K = 10; the candidates cut off are at least as far as every returned
entry, and so is every candidate that does not occur in the result. For the empty query
`findSuggestions` returns no entry. -/
theorem suggestions_top_k (self : spell_checker.SpellChecker) (top : SC.SpellChecker)
    (query : List Char) :
    (query ≠ [] →
      (spell_checker.findSuggestions self query).length =
        min self.maxSuggestions (spell_checker.candidates self query).length ∧
      (∃ rest, (spell_checker.findSuggestions self query ++ rest).Perm
          (spell_checker.candidates self query) ∧
        ∀ r ∈ spell_checker.findSuggestions self query, ∀ c ∈ rest,
          r.distance ≤ c.distance) ∧
      (∀ c ∈ spell_checker.candidates self query, c ∉ spell_checker.findSuggestions self query →
        ∀ r ∈ spell_checker.findSuggestions self query, r.distance ≤ c.distance)) ∧
    ((SC.getTopSuggestions top query).length = min 10 (SC.candidates top query).length ∧
      (∃ rest, (SC.getTopSuggestions top query ++ rest).Perm (SC.candidates top query) ∧
        ∀ r ∈ SC.getTopSuggestions top query, ∀ c ∈ rest, r.distance ≤ c.distance) ∧
      (∀ c ∈ SC.candidates top query, c ∉ SC.getTopSuggestions top query →
        ∀ r ∈ SC.getTopSuggestions top query, r.distance ≤ c.distance)) ∧
    spell_checker.findSuggestions self [] = [] := by
  refine ⟨?_, ?_, spell_checker.findSuggestions_nil self⟩
  · intro hq
    rw [spell_checker.findSuggestions_eq_take self query hq]
    exact ⟨length_take_sortByDistance _ _, take_sortByDistance_split _ _,
      fun c hc hout => take_sortByDistance_omitted _ _ c hc hout⟩
  · rw [SC.getTopSuggestions_eq_take]
    exact ⟨length_take_sortByDistance _ _, take_sortByDistance_split _ _,
      fun c hc hout => take_sortByDistance_omitted _ _ c hc hout⟩

/-- Witness for C11: the query "speling" against "spelling", "spewing", "sapling" with
K = 2 for `findSuggestions`. -/
theorem suggestions_top_k_witness :
    (spell_checker.findSuggestions
        ⟨["spelling".toList, "spewing".toList, "sapling".toList], 2, 2⟩ "speling".toList).length =
      min 2 (spell_checker.candidates
        ⟨["spelling".toList, "spewing".toList, "sapling".toList], 2, 2⟩ "speling".toList).length :=
  (suggestions_top_k ⟨["spelling".toList, "spewing".toList, "sapling".toList], 2, 2⟩
    ⟨["spelling".toList, "spewing".toList, "sapling".toList]⟩ "speling".toList).1 (by decide)
    |>.1

/-! ## Ties keep the dictionary order -/

theorem filter_distance_orderedInsert (d : Nat) (a : Suggestion) :
    ∀ l : List Suggestion,
      (List.orderedInsert (fun a b => a.distance ≤ b.distance) a l).filter
          (fun s => decide (s.distance = d)) =
        (a :: l).filter (fun s => decide (s.distance = d)) := by
  intro l
  induction l with
  | nil => rfl
  | cons b l ih =>
    rw [List.orderedInsert]
    by_cases hab : a.distance ≤ b.distance
    · rw [if_pos hab]
    · rw [if_neg hab, List.filter_cons, ih]
      by_cases hb : b.distance = d
      · have ha : ¬ a.distance = d := by omega
        simp [List.filter_cons, hb, ha]
      · simp [List.filter_cons, hb]

/-- The stable sort keeps the entries of one distance in their original order. -/
theorem filter_distance_sortByDistance (d : Nat) :
    ∀ l : List Suggestion,
      (sortByDistance l).filter (fun s => decide (s.distance = d)) =
        l.filter (fun s => decide (s.distance = d)) := by
  intro l
  induction l with
  | nil => rfl
  | cons a l ih =>
    unfold sortByDistance at ih ⊢
    rw [List.insertionSort, filter_distance_orderedInsert, List.filter_cons, List.filter_cons, ih]

theorem filter_distance_take_sortByDistance (d k : Nat) (l : List Suggestion) :
    ((sortByDistance l).take k).filter (fun s => decide (s.distance = d)) <+:
      l.filter (fun s => decide (s.distance = d)) := by
  rw [← filter_distance_sortByDistance d l]
  exact (List.take_prefix k _).filter _

theorem spell_checker.candidates_sublist (self : spell_checker.SpellChecker)
    (query : List Char) :
    List.Sublist (spell_checker.candidates self query)
      (self.dictionary.map (fun d =>
        ({ word := d, distance := spell_checker.editDistance query d } : Suggestion))) :=
  (List.filter_sublist _).map _

theorem map_word_candidates (ed : List Char → Nat) (dict : List (List Char)) :
    (dict.map (fun d => ({ word := d, distance := ed d } : Suggestion))).map
      (fun s => s.word) = dict := by
  induction dict with
  | nil => rfl
  | cons d dict ih => rw [List.map_cons, List.map_cons, ih]

/-- C12: entries with equal distance appear in the result of `findSuggestions` and of
`getTopSuggestions` in the same relative order as in the dictionary: for every distance `d`,
the returned entries of distance `d` are, in order, the first candidates of distance `d` in
dictionary order, and their words form a sublist of the dictionary. -/
theorem suggestions_stable (self : spell_checker.SpellChecker) (top : SC.SpellChecker)
    (query : List Char) (d : Nat) :
    ((spell_checker.findSuggestions self query).filter (fun s => decide (s.distance = d)) <+:
        (spell_checker.candidates self query).filter (fun s => decide (s.distance = d)) ∧
      List.Sublist
        (((spell_checker.findSuggestions self query).filter
          (fun s => decide (s.distance = d))).map (fun s => s.word))
        self.dictionary) ∧
    ((SC.getTopSuggestions top query).filter (fun s => decide (s.distance = d)) <+:
        (SC.candidates top query).filter (fun s => decide (s.distance = d)) ∧
      List.Sublist
        (((SC.getTopSuggestions top query).filter
          (fun s => decide (s.distance = d))).map (fun s => s.word))
        top.dictionary) := by
  have hfind : (spell_checker.findSuggestions self query).filter
      (fun s => decide (s.distance = d)) <+:
        (spell_checker.candidates self query).filter (fun s => decide (s.distance = d)) := by
    by_cases hq : query = []
    · subst hq
      rw [spell_checker.findSuggestions_nil]
      exact List.nil_prefix
    · rw [spell_checker.findSuggestions_eq_take self query hq]
      exact filter_distance_take_sortByDistance d _ _
  have htop : (SC.getTopSuggestions top query).filter (fun s => decide (s.distance = d)) <+:
      (SC.candidates top query).filter (fun s => decide (s.distance = d)) := by
    rw [SC.getTopSuggestions_eq_take]
    exact filter_distance_take_sortByDistance d _ _
  refine ⟨⟨hfind, ?_⟩, ⟨htop, ?_⟩⟩
  · have h1 := ((hfind.sublist.trans (List.filter_sublist _)).trans
      (spell_checker.candidates_sublist self query)).map (fun s => s.word)
    rw [map_word_candidates] at h1
    exact h1
  · have h1 := (htop.sublist.trans (List.filter_sublist _)).map (fun s => s.word)
    unfold SC.candidates at h1
    rw [map_word_candidates] at h1
    exact h1

/-- C13: `findSuggestions` returns at most `maxSuggestions` entries, 5 for a freshly
constructed checker, and `getTopSuggestions` returns at most 10 entries. -/
theorem suggestions_length_le (self : spell_checker.SpellChecker) (top : SC.SpellChecker)
    (query : List Char) :
    (spell_checker.findSuggestions self query).length ≤ self.maxSuggestions ∧
    spell_checker.SpellChecker.new.maxSuggestions = 5 ∧
    (SC.getTopSuggestions top query).length ≤ 10 := by
  refine ⟨?_, rfl, ?_⟩
  · by_cases hq : query = []
    · subst hq
      rw [spell_checker.findSuggestions_nil]
      exact Nat.zero_le _
    · rw [spell_checker.findSuggestions_eq_take self query hq, length_take_sortByDistance]
      exact Nat.min_le_left _ _
  · rw [SC.getTopSuggestions_eq_take, length_take_sortByDistance]
    exact Nat.min_le_left _ _

/-- C14: for every dictionary, threshold and bound, `findSuggestions` applied to the empty
query word returns the empty result set. -/
theorem spell_checker.findSuggestions_empty_query (self : spell_checker.SpellChecker) :
    spell_checker.findSuggestions self [] = [] := by
  unfold spell_checker.findSuggestions
  rfl

/-! ## Empty query and empty dictionary -/

theorem SC.weightedDistance_nil_left (w : List Char) : SC.editDistance [] w = 2 * w.length := by
  rw [SC.weightedDistance_eq_minRec, List.reverse_nil, dpRec_nil_left, List.length_reverse,
    Nat.mul_comm]

theorem SC.mem_getTopSuggestions {self : SC.SpellChecker} {query : List Char} {s : Suggestion}
    (hs : s ∈ SC.getTopSuggestions self query) :
    s.word ∈ self.dictionary ∧ s.distance = SC.editDistance query s.word := by
  rw [SC.getTopSuggestions_eq_take] at hs
  have h1 := mem_sortByDistance.mp (List.mem_of_mem_take hs)
  obtain ⟨d, hd, rfl⟩ := List.mem_map.mp h1
  exact ⟨hd, rfl⟩

theorem SC.length_getTopSuggestions (self : SC.SpellChecker) (query : List Char) :
    (SC.getTopSuggestions self query).length = min 10 self.dictionary.length := by
  rw [SC.getTopSuggestions_eq_take, length_take_sortByDistance, SC.candidates, List.length_map]

/-- C15, refuted as stated: for the dictionary with the single word "a", `getTopSuggestions`
applied to the empty query word returns the entry for "a", not an empty result set. -/
theorem SC.getTopSuggestions_empty_query_nonempty :
    SC.getTopSuggestions ⟨["a".toList]⟩ [] = [⟨"a".toList, 2⟩] ∧
    SC.getTopSuggestions ⟨["a".toList]⟩ [] ≠ [] := by
  decide

/-- C15, amended: for every dictionary, `getTopSuggestions` applied to the empty query word
returns min(10, size of the dictionary) entries, each a dictionary word with distance twice
its length; the result is empty exactly when the dictionary is empty. -/
theorem SC.getTopSuggestions_empty_query (self : SC.SpellChecker) :
    (SC.getTopSuggestions self []).length = min 10 self.dictionary.length ∧
    (∀ s ∈ SC.getTopSuggestions self [],
      s.word ∈ self.dictionary ∧ s.distance = 2 * s.word.length) ∧
    (SC.getTopSuggestions self [] = [] ↔ self.dictionary = []) := by
  refine ⟨SC.length_getTopSuggestions self [], ?_, ?_⟩
  · intro s hs
    have h := SC.mem_getTopSuggestions hs
    exact ⟨h.1, by rw [h.2, SC.weightedDistance_nil_left]⟩
  · rw [← List.length_eq_zero, SC.length_getTopSuggestions, ← List.length_eq_zero]
    omega

/-- Witness for C15, amended: the entry returned for the empty query against the dictionary
with the single word "a". -/
theorem SC.getTopSuggestions_empty_query_witness :
    "a".toList ∈ ["a".toList] ∧ 2 = 2 * "a".toList.length :=
  (SC.getTopSuggestions_empty_query ⟨["a".toList]⟩).2.1 ⟨"a".toList, 2⟩ (by decide)

/-- C16: for every query word, `findSuggestions` and `getTopSuggestions` return the empty result
set when the dictionary is empty, whatever the threshold and the bound; the dictionary of a
freshly constructed checker is empty, so both return the empty result set on it. -/
theorem suggestions_empty_dictionary (query : List Char) (threshold : Int) (k : Nat) :
    spell_checker.findSuggestions ⟨[], threshold, k⟩ query = [] ∧
    SC.getTopSuggestions ⟨[]⟩ query = [] ∧
    spell_checker.SpellChecker.new.dictionary = [] ∧
    SC.SpellChecker.new.dictionary = [] ∧
    spell_checker.findSuggestions spell_checker.SpellChecker.new query = [] ∧
    SC.getTopSuggestions SC.SpellChecker.new query = [] := by
  have h : ∀ (t : Int) (n : Nat), spell_checker.findSuggestions ⟨[], t, n⟩ query = [] := by
    intro t n
    by_cases hq : query = []
    · subst hq
      exact spell_checker.findSuggestions_nil _
    · rw [spell_checker.findSuggestions_eq_take _ query hq]
      simp [spell_checker.candidates, sortByDistance]
  exact ⟨h threshold k, rfl, rfl, rfl, h 2 5, rfl⟩

/-! ## The two distances compared -/

theorem unitPen_le_getMismatchPenalty (c d : Char) : unitPen c d ≤ SC.getMismatchPenalty c d := by
  rw [SC.getMismatchPenalty_eq, unitPen]
  split_ifs <;> omega

theorem getMismatchPenalty_le_three_unitPen (c d : Char) :
    SC.getMismatchPenalty c d ≤ 3 * unitPen c d := by
  rw [SC.getMismatchPenalty_eq, unitPen]
  split_ifs <;> omega

theorem min3_mono {a b c x y z : Nat} (h1 : a ≤ x) (h2 : b ≤ y) (h3 : c ≤ z) :
    min3 a b c ≤ min3 x y z := by
  unfold min3; omega

theorem min3_le_three_mul {a b c x y z : Nat} (h1 : a ≤ 3 * x) (h2 : b ≤ 3 * y)
    (h3 : c ≤ 3 * z) : min3 a b c ≤ 3 * min3 x y z := by
  unfold min3; omega

theorem unitRec_le_weightedRec :
    ∀ x y : List Char,
      dpRec 1 (minCell unitPen 1) x y ≤ dpRec 2 (minCell SC.getMismatchPenalty 2) x y := by
  intro x
  induction x with
  | nil => intro y; rw [dpRec_nil_left, dpRec_nil_left]; omega
  | cons c x ihx =>
    intro y
    induction y with
    | nil => rw [dpRec_nil_right, dpRec_nil_right]; omega
    | cons d y ihy =>
      rw [dpRec_cons_cons, dpRec_cons_cons, minCell_apply, minCell_apply]
      have h1 := ihx y
      have h2 := ihx (d :: y)
      have hp := unitPen_le_getMismatchPenalty c d
      exact min3_mono (by omega) (by omega) (by omega)

theorem weightedRec_le_three_unitRec :
    ∀ x y : List Char,
      dpRec 2 (minCell SC.getMismatchPenalty 2) x y ≤ 3 * dpRec 1 (minCell unitPen 1) x y := by
  intro x
  induction x with
  | nil => intro y; rw [dpRec_nil_left, dpRec_nil_left]; omega
  | cons c x ihx =>
    intro y
    induction y with
    | nil => rw [dpRec_nil_right, dpRec_nil_right]; omega
    | cons d y ihy =>
      rw [dpRec_cons_cons, dpRec_cons_cons, minCell_apply, minCell_apply]
      have h1 := ihx y
      have h2 := ihx (d :: y)
      have hp := getMismatchPenalty_le_three_unitPen c d
      exact min3_le_three_mul (by omega) (by omega) (by omega)

/-- C18: the weighted `editDistance` of SC.js satisfies the triangle inequality. -/
theorem SC.editDistance_triangle (a b c : List Char) :
    SC.editDistance a c ≤ SC.editDistance a b + SC.editDistance b c :=
  SC.weightedDistance_triangle a b c

/-- C19: the weighted `editDistance(a, b)` of SC.js is 0 only if `a = b`; so an entry returned
by `getTopSuggestions` has distance 0 exactly when its word is the query itself. -/
theorem SC.editDistance_eq_zero_only_if_eq (a b : List Char) (self : SC.SpellChecker) :
    (SC.editDistance a b = 0 → a = b) ∧
    (∀ w ∈ self.dictionary, SC.editDistance a w = 0 ↔ w = a) ∧
    (∀ s ∈ SC.getTopSuggestions self a, s.distance = 0 ↔ s.word = a) := by
  refine ⟨(SC.weightedDistance_eq_zero_iff a b).1, ?_, ?_⟩
  · intro w _
    rw [SC.weightedDistance_eq_zero_iff]
    exact eq_comm
  · intro s hs
    rw [(SC.mem_getTopSuggestions hs).2, SC.weightedDistance_eq_zero_iff]
    exact eq_comm

/-- Witness for C19: "cat" and "cat" are at distance 0 and are equal. -/
theorem SC.editDistance_eq_zero_only_if_eq_witness : "cat".toList = "cat".toList :=
  (SC.editDistance_eq_zero_only_if_eq "cat".toList "cat".toList ⟨[]⟩).1 (by decide)

/-- C20: the unit-cost `editDistance` of spell_checker.js is at most the weighted `editDistance`
of SC.js, which is at most 3 times the unit-cost one. -/
theorem editDistance_unit_le_weighted_le_three_unit (a b : List Char) :
    spell_checker.editDistance a b ≤ SC.editDistance a b ∧
    SC.editDistance a b ≤ 3 * spell_checker.editDistance a b := by
  rw [spell_checker.unitDistance_eq_minRec, SC.weightedDistance_eq_minRec]
  exact ⟨unitRec_le_weightedRec _ _, weightedRec_le_three_unitRec _ _⟩

/-! ## checkText: the words matched and the properties of the result -/

theorem matchExtent_class :
    ∀ (r : List Char) (prev : Option Char) (j : Nat), matchExtent prev r = some j →
      ∀ c ∈ r.take j, inWordClass c = true := by
  intro r
  induction r with
  | nil => intro prev j _ c hc; simp at hc
  | cons a r ih =>
    intro prev j h c hc
    unfold matchExtent at h
    by_cases ha : inWordClass a = true
    · rw [if_pos ha] at h
      cases hm : matchExtent (some a) r with
      | some k =>
        rw [hm] at h
        simp only [Option.some.injEq] at h
        subst h
        rw [List.take_succ_cons, List.mem_cons] at hc
        rcases hc with hc | hc
        · rw [hc]; exact ha
        · exact ih (some a) k hm c hc
      | none =>
        rw [hm] at h
        simp only at h
        split at h
        · simp only [Option.some.injEq] at h
          subst h
          simp at hc
        · exact Option.noConfusion h
    · rw [if_neg ha] at h
      split at h
      · simp only [Option.some.injEq] at h
        subst h
        simp at hc
      · exact Option.noConfusion h

theorem scanWords_class :
    ∀ (s : List Char) (skip : Nat) (prev : Option Char), ∀ w ∈ scanWords skip prev s,
      w ≠ [] ∧ ∀ c ∈ w, inWordClass c = true := by
  intro s
  induction s with
  | nil => intro skip prev w hw; simp [scanWords] at hw
  | cons a r ih =>
    intro skip prev w hw
    cases skip with
    | succ k =>
      rw [scanWords] at hw
      exact ih k (some a) w hw
    | zero =>
      rw [scanWords] at hw
      by_cases hcond : (atBoundary prev (a :: r) && inWordClass a) = true
      · rw [if_pos hcond] at hw
        cases hm : matchExtent (some a) r with
        | some j =>
          rw [hm] at hw
          simp only [List.mem_cons] at hw
          rcases hw with hw | hw
          · subst hw
            refine ⟨List.cons_ne_nil _ _, ?_⟩
            intro c hc
            rw [List.mem_cons] at hc
            rcases hc with hc | hc
            · rw [hc]
              exact (Bool.and_eq_true _ _ ▸ hcond).2
            · exact matchExtent_class r (some a) j hm c hc
          · exact ih j (some a) w hw
        | none =>
          rw [hm] at hw
          exact ih 0 (some a) w hw
      · rw [if_neg hcond] at hw
        exact ih 0 (some a) w hw

theorem spell_checker.checkWords_eq_foldl (self : spell_checker.SpellChecker)
    (words : List (List Char)) :
    spell_checker.checkWords self words = words.foldl (spell_checker.checkStep self) [] := rfl

theorem any_key_iff (results : List (List Char × List Suggestion)) (word : List Char) :
    results.any (fun e => decide (e.1 = word)) = true ↔ word ∈ results.map (fun e => e.1) := by
  rw [List.any_eq_true, List.mem_map]
  constructor
  · rintro ⟨e, he, h⟩
    exact ⟨e, he, by simpa using h⟩
  · rintro ⟨e, he, h⟩
    exact ⟨e, he, by simpa using h⟩

theorem spell_checker.checkStep_inv (self : spell_checker.SpellChecker)
    (seen : List (List Char)) (results : List (List Char × List Suggestion)) (w : List Char)
    (h : spell_checker.CheckInv self seen results) :
    spell_checker.CheckInv self (seen ++ [w]) (spell_checker.checkStep self results w) := by
  obtain ⟨ha, hb, hc⟩ := h
  have hbase : ∀ e ∈ results, e.2 = spell_checker.findSuggestions self e.1 ∧
      e.1 ∈ seen ++ [w] ∧ e.1 ∉ self.dictionary ∧ e.2 ≠ [] ∧ e.1 ≠ "constructor".toList := by
    intro e he
    obtain ⟨h1, h2, h3, h4, h5⟩ := ha e he
    exact ⟨h1, List.mem_append_left _ h2, h3, h4, h5⟩
  unfold spell_checker.checkStep
  by_cases hskip :
      (spell_checker.lookupTruthy results w || self.dictionary.contains w) = true
  · rw [if_pos hskip]
    refine ⟨hbase, ?_, hc⟩
    intro v hv hcon hdict hsug
    rcases List.mem_append.mp hv with hv | hv
    · exact hb v hv hcon hdict hsug
    · have hvw : v = w := by simpa using hv
      subst hvw
      rw [Bool.or_eq_true] at hskip
      rcases hskip with hl | hd
      · unfold spell_checker.lookupTruthy at hl
        rw [Bool.or_eq_true] at hl
        rcases hl with hl | hl
        · exact (any_key_iff results v).mp hl
        · exact absurd (by simpa using hl) hcon
      · exact absurd (by simpa using hd) hdict
  · rw [if_neg hskip]
    have hskip2 : spell_checker.lookupTruthy results w = false ∧
        self.dictionary.contains w = false :=
      Bool.or_eq_false_iff.mp (Bool.eq_false_iff.mpr hskip)
    obtain ⟨hl, hd⟩ := hskip2
    have hnotkey : w ∉ results.map (fun e => e.1) := by
      intro hk
      have := (any_key_iff results w).mpr hk
      simp [spell_checker.lookupTruthy, this] at hl
    have hcon : w ≠ "constructor".toList := by
      intro hk
      simp [spell_checker.lookupTruthy, hk] at hl
    have hdict : w ∉ self.dictionary := by
      intro hk
      have : self.dictionary.contains w = true := by simpa using hk
      rw [this] at hd
      exact Bool.noConfusion hd
    by_cases hlen : (spell_checker.findSuggestions self w).length > 0
    · simp only [hlen, if_true]
      have hany : results.any (fun e => decide (e.1 = w)) = false := by
        cases hx : results.any (fun e => decide (e.1 = w))
        · rfl
        · exact absurd ((any_key_iff results w).mp hx) hnotkey
      unfold spell_checker.assign
      rw [hany]
      simp only [Bool.false_eq_true, if_false]
      refine ⟨?_, ?_, ?_⟩
      · intro e he
        rcases List.mem_append.mp he with he | he
        · exact hbase e he
        · have hew : e = (w, spell_checker.findSuggestions self w) := by simpa using he
          subst hew
          refine ⟨rfl, by simp, hdict, ?_, hcon⟩
          intro hnil
          simp only at hnil
          rw [hnil] at hlen
          exact absurd hlen (by simp)
      · intro v hv _ hvd hvs
        rw [List.map_append, List.mem_append]
        rcases List.mem_append.mp hv with hv | hv
        · exact Or.inl (hb v hv ‹_› hvd hvs)
        · right
          simpa using hv
      · rw [List.map_append, List.nodup_append]
        refine ⟨hc, by simp, ?_⟩
        intro x hx hx2
        have : x = w := by simpa using hx2
        subst this
        exact hnotkey hx
    · simp only [hlen, if_false]
      refine ⟨hbase, ?_, hc⟩
      intro v hv hvc hvd hvs
      rcases List.mem_append.mp hv with hv | hv
      · exact hb v hv hvc hvd hvs
      · have hvw : v = w := by simpa using hv
        subst hvw
        exfalso
        apply hlen
        exact List.length_pos.mpr hvs

theorem spell_checker.foldl_checkStep_inv (self : spell_checker.SpellChecker) :
    ∀ (ws seen : List (List Char)) (results : List (List Char × List Suggestion)),
      spell_checker.CheckInv self seen results →
      spell_checker.CheckInv self (seen ++ ws) (ws.foldl (spell_checker.checkStep self) results) := by
  intro ws
  induction ws with
  | nil => intro seen results h; simpa using h
  | cons w ws ih =>
    intro seen results h
    have h1 := ih (seen ++ [w]) _ (spell_checker.checkStep_inv self seen results w h)
    simpa using h1

theorem spell_checker.checkWords_inv (self : spell_checker.SpellChecker)
    (words : List (List Char)) :
    spell_checker.CheckInv self words (spell_checker.checkWords self words) := by
  have h0 : spell_checker.CheckInv self [] [] :=
    ⟨fun e he => absurd he (List.not_mem_nil e), fun w hw => absurd hw (List.not_mem_nil w),
      List.nodup_nil⟩
  have := spell_checker.foldl_checkStep_inv self words [] [] h0
  simpa [spell_checker.checkWords_eq_foldl] using this

/-- C17, refuted as stated: the text "zzzz" has the single word "zzzz", which is not in the
dictionary with the single word "a", and `checkText` returns the empty mapping: the word is not
a key, because it has no suggestion within the threshold 2. -/
theorem spell_checker.checkText_omits_word_without_suggestions :
    matchWords (asciiLower "zzzz".toList) = ["zzzz".toList] ∧
    "zzzz".toList ∉ ["a".toList] ∧
    spell_checker.checkText asciiLower ⟨["a".toList], 2, 5⟩ "zzzz".toList = [] ∧
    ¬ (∀ w : List Char,
        w ∈ (spell_checker.checkText asciiLower ⟨["a".toList], 2, 5⟩ "zzzz".toList).map
            (fun e => e.1) ↔
          (w ∈ matchWords (asciiLower "zzzz".toList) ∧ w ∉ ["a".toList])) := by
  have h1 : matchWords (asciiLower "zzzz".toList) = ["zzzz".toList] := by decide
  have h2 : "zzzz".toList ∉ ["a".toList] := by decide
  have h3 : spell_checker.checkText asciiLower ⟨["a".toList], 2, 5⟩ "zzzz".toList = [] := by
    decide
  refine ⟨h1, h2, h3, ?_⟩
  intro h
  have := (h "zzzz".toList).mpr ⟨by rw [h1]; exact List.mem_singleton.mpr rfl, h2⟩
  rw [h3] at this
  exact absurd this (List.not_mem_nil _)

/-- C17, amended: the keys of the mapping returned by `checkText` are distinct words of the
text (matches of the pattern in the lowercased text, non-empty and over a to z, apostrophe and
hyphen), none of them in the dictionary; a word of the text other than `constructor` is a key
exactly when it is not in the dictionary and `findSuggestions` of it is not empty; each key is
mapped to `findSuggestions` of that word. Every key, whatever the word, is a word of the text,
is not in the dictionary and has a non-empty list of suggestions. -/
theorem spell_checker.checkText_keys (toLowerCase : List Char → List Char)
    (self : spell_checker.SpellChecker) (text : List Char) :
    (∀ w : List Char, w ≠ "constructor".toList →
      (w ∈ (spell_checker.checkText toLowerCase self text).map (fun e => e.1) ↔
        (w ∈ matchWords (toLowerCase text) ∧ w ∉ self.dictionary ∧
          spell_checker.findSuggestions self w ≠ []))) ∧
    (∀ e ∈ spell_checker.checkText toLowerCase self text,
      e.2 = spell_checker.findSuggestions self e.1) ∧
    (∀ e ∈ spell_checker.checkText toLowerCase self text, e.1 ∉ self.dictionary) ∧
    ((spell_checker.checkText toLowerCase self text).map (fun e => e.1)).Nodup ∧
    (∀ w ∈ matchWords (toLowerCase text), w ≠ [] ∧ ∀ c ∈ w, inWordClass c = true) ∧
    (∀ w ∈ (spell_checker.checkText toLowerCase self text).map (fun e => e.1),
      w ∈ matchWords (toLowerCase text) ∧ w ∉ self.dictionary ∧
        spell_checker.findSuggestions self w ≠ []) := by
  obtain ⟨ha, hb, hc⟩ := spell_checker.checkWords_inv self (matchWords (toLowerCase text))
  refine ⟨?_, ?_, ?_, hc, ?_, ?_⟩
  · intro w hw
    constructor
    · intro hk
      obtain ⟨e, he, rfl⟩ := List.mem_map.mp hk
      obtain ⟨h1, h2, h3, h4, _⟩ := ha e he
      exact ⟨h2, h3, by rw [← h1]; exact h4⟩
    · rintro ⟨h1, h2, h3⟩
      exact hb w h1 hw h2 h3
  · intro e he
    exact (ha e he).1
  · intro e he
    exact (ha e he).2.2.1
  · intro w hw
    exact scanWords_class _ 0 none w hw
  · intro w hk
    obtain ⟨e, he, rfl⟩ := List.mem_map.mp hk
    obtain ⟨h1, h2, h3, h4, _⟩ := ha e he
    exact ⟨h2, h3, by rw [← h1]; exact h4⟩

/-- Witness for C17, amended: the key "cot" of the text "Cot" against the dictionary with the
single word "cat" is mapped to the suggestions of "cot". -/
theorem spell_checker.checkText_keys_witness :
    [({ word := "cat".toList, distance := 1 } : Suggestion)] =
      spell_checker.findSuggestions ⟨["cat".toList], 2, 5⟩ "cot".toList :=
  (spell_checker.checkText_keys asciiLower ⟨["cat".toList], 2, 5⟩ "Cot".toList).2.1
    ("cot".toList, [⟨"cat".toList, 1⟩]) (by decide)
